import Mathlib

/-!
Shallow embedding of the ZFS virtual-device read-ahead cache
(`src/zfs/lib/libzpool/vdev_cache.c`) and proofs about its five
operations: allocate, fill, read, write, evict.

Modelling conventions:
  * C `uint64_t` offsets and sizes are `Nat`, with an explicit `% U64`
    exactly where the C expression can wrap (the `io_offset + io_size - 1`
    straddle operand and the `P2ROUNDUP` macro).
  * The two AVL trees (`vc_offset_tree`, `vc_lastused_tree`) always hold
    the same entries, so the cache is one `List VdevCacheEntry`; the
    offset lookup (`avl_find`) and the LRU minimum (`avl_first` of the
    lastused tree, via the embedded comparator) are derived queries.
  * `ve_fill_io` and the in-flight child's `io_delegate_list` are one
    field `ve_fill : Option (List ZioReq)`: `some dl` is a fill in
    flight whose delegate list is `dl` (head = most recently pushed),
    `none` is no fill in flight.  Under the cache lock this is exactly
    the information of the C pointer pair.
  * Buffers are `List Nat` of byte values; `bcopy` becomes take/drop
    splicing.  `zio_buf_alloc` yields an unspecified buffer, modelled as
    zeros.
  * Each C function that mutates under `vc_lock` becomes a function from
    the pre-lock cache state to the post-unlock cache state, together
    with the externally visible actions (which requests get resumed, in
    order, with which error and buffer contents).
-/

/-- Machine word bound for C `uint64_t` offset/size arithmetic. -/
def U64 : Nat := 2 ^ 64

/-- Embeds the `P2ALIGN(x, align)` macro, `(x) & -(align)`: for a
power-of-two `align` this rounds `x` down to a multiple of `align`. -/
def p2align (x align : Nat) : Nat := x - x % align

/-- Embeds the `P2PHASE(x, align)` macro, `(x) & ((align) - 1)`: for a
power-of-two `align` this is `x` modulo `align`. -/
def p2phase (x align : Nat) : Nat := x % align

/-- Embeds the `P2CROSS(x, y, align)` macro, `((x) ^ (y)) > (align) - 1`:
for a power-of-two `align`, true iff `x` and `y` lie in different
`align`-sized blocks. -/
def p2cross (x y align : Nat) : Bool := decide (align - 1 < x ^^^ y)

/-- Embeds the `P2ROUNDUP(x, align)` macro, `-(-(x) & -(align))` on
`uint64_t`: rounds `x` up to a multiple of the power-of-two `align`,
wrapping to `0` when `x` is within `align` of `2 ^ 64`. -/
def p2roundup (x align : Nat) : Nat := ((x + align - 1) / align * align) % U64

/-- The three process-wide tunables `zfs_vdev_cache_max`,
`zfs_vdev_cache_size` and `zfs_vdev_cache_bshift`. -/
structure VdevCacheTunables where
  zfs_vdev_cache_max : Nat
  zfs_vdev_cache_size : Nat
  zfs_vdev_cache_bshift : Nat
deriving DecidableEq

/-- Embeds the `VCBS` macro `(1 << zfs_vdev_cache_bshift)`: the cache
block size. -/
def VCBS (tun : VdevCacheTunables) : Nat := 1 <<< tun.zfs_vdev_cache_bshift

/-- The slice of a `zio_t` request that the cache reads or writes.
`io_dont_cache` abstracts the bit `io_flags & ZIO_FLAG_DONT_CACHE`. -/
structure ZioReq where
  io_offset : Nat
  io_size : Nat
  io_data : List Nat
  io_error : Nat
  io_dont_cache : Bool
deriving DecidableEq

/-- Embeds `vdev_cache_entry_t`.  `ve_fill` models `ve_fill_io` together
with the in-flight child read's `io_delegate_list` (see the module
comment). -/
structure VdevCacheEntry where
  ve_offset : Nat
  ve_lastused : Nat
  ve_hits : Nat
  ve_missed_update : Bool
  ve_data : List Nat
  ve_fill : Option (List ZioReq)
deriving DecidableEq

/-- Embeds `vdev_cache_lastused_compare` as a strict order test:
`ve_lastused` first, `ve_offset` as tiebreaker (the source comment:
among equally old entries, sort by offset to ensure uniqueness). -/
def lastusedLt (a b : VdevCacheEntry) : Bool :=
  a.ve_lastused < b.ve_lastused ||
    (a.ve_lastused == b.ve_lastused && a.ve_offset < b.ve_offset)

/-- Embeds `avl_first(&vc->vc_lastused_tree)`: the entry minimal for
`vdev_cache_lastused_compare`, i.e. the LRU eviction candidate. -/
def avlFirstLastused : List VdevCacheEntry → Option VdevCacheEntry
  | [] => none
  | e :: es =>
    match avlFirstLastused es with
    | none => some e
    | some m => some (if lastusedLt m e then m else e)

/-- Embeds `avl_find(&vc->vc_offset_tree, &ve_search, NULL)` with
`ve_search.ve_offset = off`: the entry cached for block `off`. -/
def avlFindOffset (vc : List VdevCacheEntry) (off : Nat) : Option VdevCacheEntry :=
  vc.find? (fun e => e.ve_offset == off)

/-- Writes the in-place mutation of the entry with offset `off` back
into the cache state (in C the entry is mutated through its pointer,
so both trees see the update). -/
def replaceEntry (vc : List VdevCacheEntry) (off : Nat) (ve : VdevCacheEntry) :
    List VdevCacheEntry :=
  vc.map (fun e => if e.ve_offset == off then ve else e)

/-- Embeds `vdev_cache_evict`: removes the entry for block `off` from
both trees and frees its buffer and the entry itself (so it simply
disappears from the state). -/
def vdev_cache_evict (vc : List VdevCacheEntry) (off : Nat) : List VdevCacheEntry :=
  vc.eraseP (fun e => e.ve_offset == off)

/-- The freshly zeroed entry `vdev_cache_allocate` creates:
`ve_offset = P2ALIGN(io_offset, VCBS)`, `ve_lastused = lbolt`, a
newly allocated `VCBS`-byte buffer, all other fields zero
(`kmem_zalloc`). -/
def newCacheEntry (tun : VdevCacheTunables) (lbolt io_offset : Nat) : VdevCacheEntry :=
  { ve_offset := p2align io_offset (VCBS tun)
    ve_lastused := lbolt
    ve_hits := 0
    ve_missed_update := false
    ve_data := List.replicate (VCBS tun) 0
    ve_fill := none }

/-- Embeds `vdev_cache_allocate`.  Returns `none` where the C function
returns `NULL` (cache disabled, or the LRU entry is still filling so no
room can be made); otherwise the new entry and the updated cache.  When
the current entry count shifted by `bshift` exceeds
`zfs_vdev_cache_size`, the LRU entry (`avl_first` of the lastused tree)
is evicted first. -/
def vdev_cache_allocate (tun : VdevCacheTunables) (lbolt : Nat)
    (vc : List VdevCacheEntry) (io_offset : Nat) :
    Option (VdevCacheEntry × List VdevCacheEntry) :=
  if tun.zfs_vdev_cache_size = 0 then none
  else
    match
      (if tun.zfs_vdev_cache_size < vc.length <<< tun.zfs_vdev_cache_bshift then
        match avlFirstLastused vc with
        | none => some vc
        | some ve =>
          if ve.ve_fill.isSome then none
          else some (vdev_cache_evict vc ve.ve_offset)
      else some vc : Option (List VdevCacheEntry)) with
    | none => none
    | some vc1 =>
      some (newCacheEntry tun lbolt io_offset, vc1 ++ [newCacheEntry tun lbolt io_offset])

/-- Embeds `vdev_cache_hit`: refreshes `ve_lastused` to the current
`lbolt` if it moved (remove/re-add in the lastused tree), bumps
`ve_hits`, and copies `io_size` bytes from
`ve_data + P2PHASE(io_offset, VCBS)` into the request's buffer.
Returns the mutated entry and the request with its buffer filled. -/
def vdev_cache_hit (tun : VdevCacheTunables) (lbolt : Nat)
    (ve : VdevCacheEntry) (z : ZioReq) : VdevCacheEntry × ZioReq :=
  let cache_phase := p2phase z.io_offset (VCBS tun)
  let ve1 := if ve.ve_lastused ≠ lbolt then { ve with ve_lastused := lbolt } else ve
  let ve2 := { ve1 with ve_hits := ve1.ve_hits + 1 }
  (ve2, { z with io_data := (ve2.ve_data.drop cache_phase).take z.io_size })

/-- The in-lock loop of `vdev_cache_fill`:
`for (dio = zio->io_delegate_list; dio; dio = dio->io_delegate_next)
vdev_cache_hit(vc, ve, dio)` — serves every delegate in delegate-list
order, threading the entry through.  Returns the final entry and the
served requests in the order they were visited. -/
def fillHitLoop (tun : VdevCacheTunables) (lbolt : Nat) :
    VdevCacheEntry → List ZioReq → VdevCacheEntry × List ZioReq
  | ve, [] => (ve, [])
  | ve, d :: ds =>
    let p := vdev_cache_hit tun lbolt ve d
    let q := fillHitLoop tun lbolt p.1 ds
    (q.1, p.2 :: q.2)

/-- Result of `vdev_cache_fill`: the cache state after the critical
section, and the delegates handed to `zio_execute`, in resumption
order, each with its buffer as copied in the lock and its `io_error`
set to the child's error. -/
structure FillOutcome where
  cache : List VdevCacheEntry
  resumed : List ZioReq
deriving DecidableEq

/-- Embeds `vdev_cache_fill`, the completion routine of the child read
for block `off`.  `err` is the child's `io_error`; `fdata` is the
contents the child deposited in the entry's buffer (the source asserts
`ve->ve_data == zio->io_data`, i.e. the child read directly into the
entry's buffer, so at completion `ve_data` holds `fdata`).  Clears
`ve_fill_io`, serves every delegate under the lock, evicts the entry if
the child failed or a write invalidated it, then (outside the lock)
pops each delegate off the list, stores the child's error in it and
resumes it.  The two unreachable fallbacks correspond to the source's
`ASSERT(ve->ve_fill_io == zio)` — completion always finds its own
entry still filling. -/
def vdev_cache_fill (tun : VdevCacheTunables) (lbolt : Nat)
    (vc : List VdevCacheEntry) (off err : Nat) (fdata : List Nat) : FillOutcome :=
  match avlFindOffset vc off with
  | none => { cache := vc, resumed := [] }
  | some ve =>
    match ve.ve_fill with
    | none => { cache := vc, resumed := [] }
    | some dl =>
      let ve0 := { ve with ve_data := fdata, ve_fill := none }
      let p := fillHitLoop tun lbolt ve0 dl
      let vc1 := replaceEntry vc off p.1
      let vc2 := if err ≠ 0 ∨ p.1.ve_missed_update then vdev_cache_evict vc1 off else vc1
      { cache := vc2, resumed := p.2.map (fun d => { d with io_error := err }) }

/-- The return value of `vdev_cache_read` (`0` on the three accepted
paths, an errno on the five decline paths). -/
inductive ZioErrno where
  | OK
  | EINVAL
  | EOVERFLOW
  | EXDEV
  | ESTALE
  | ENOMEM
deriving DecidableEq

/-- Result of `vdev_cache_read`: the return code, the cache state after
the critical section, and the request resumed inline by `zio_execute`
on a synchronous hit (with its buffer filled), if any. -/
structure ReadOutcome where
  code : ZioErrno
  cache : List VdevCacheEntry
  resumed : Option ZioReq
deriving DecidableEq

/-- Embeds `vdev_cache_read`.  Policy gate first (don't-cache flag →
`EINVAL`; `io_size > zfs_vdev_cache_max` → `EOVERFLOW`; the request
straddles a cache-block boundary, tested by
`P2CROSS(io_offset, io_offset + io_size - 1, VCBS)` with the operand
computed in `uint64_t` → `EXDEV`).  Then, under the lock: a found entry
with `ve_missed_update` declines with `ESTALE`; a found entry still
filling gets the request pushed onto the front of the fill's delegate
list; a found idle entry is a synchronous hit; a missing entry is a
miss — allocate (failure → `ENOMEM`), create the child read for the
whole block, store it in `ve_fill_io` with the request as the sole
delegate. -/
def vdev_cache_read (tun : VdevCacheTunables) (lbolt : Nat)
    (vc : List VdevCacheEntry) (z : ZioReq) : ReadOutcome :=
  let cache_offset := p2align z.io_offset (VCBS tun)
  if z.io_dont_cache then { code := .EINVAL, cache := vc, resumed := none }
  else if tun.zfs_vdev_cache_max < z.io_size then
    { code := .EOVERFLOW, cache := vc, resumed := none }
  else if p2cross z.io_offset ((z.io_offset + z.io_size + (U64 - 1)) % U64) (VCBS tun) then
    { code := .EXDEV, cache := vc, resumed := none }
  else
    match avlFindOffset vc cache_offset with
    | some ve =>
      if ve.ve_missed_update then { code := .ESTALE, cache := vc, resumed := none }
      else
        match ve.ve_fill with
        | some dl =>
          { code := .OK
            cache := replaceEntry vc cache_offset { ve with ve_fill := some (z :: dl) }
            resumed := none }
        | none =>
          let p := vdev_cache_hit tun lbolt ve z
          { code := .OK
            cache := replaceEntry vc cache_offset p.1
            resumed := some p.2 }
    | none =>
      match vdev_cache_allocate tun lbolt vc z.io_offset with
      | none => { code := .ENOMEM, cache := vc, resumed := none }
      | some (ve, vc1) =>
        { code := .OK
          cache := replaceEntry vc1 cache_offset { ve with ve_fill := some [z] }
          resumed := none }

/-- Splices the byte segment `seg` into `data` at position `pos`:
`bcopy(src, data + pos, seg.length)`. -/
def writeSeg (data : List Nat) (pos : Nat) (seg : List Nat) : List Nat :=
  data.take pos ++ seg ++ data.drop (pos + seg.length)

/-- Embeds `vdev_cache_write`, invoked after a write of `io_size` bytes
at `io_offset` (contents `wdata`) completed against the device.  The
source walks the offset tree from the first entry with
`ve_offset ≥ P2ALIGN(io_offset, VCBS)` while `ve_offset <
P2ROUNDUP(io_offset + io_size, VCBS)`; since the tree is ordered by
offset, that visits exactly the entries whose offset lies in that
half-open interval, which the `List.map` below reproduces.  A visited
entry still filling gets `ve_missed_update = 1`; otherwise the
overlapping bytes `[MAX(ve_offset, io_start), MIN(ve_offset + VCBS,
io_end))` are copied from the write's buffer into the entry's
buffer. -/
def vdev_cache_write (tun : VdevCacheTunables) (vc : List VdevCacheEntry)
    (io_offset io_size : Nat) (wdata : List Nat) : List VdevCacheEntry :=
  let io_start := io_offset
  let io_end := io_start + io_size
  let min_offset := p2align io_start (VCBS tun)
  let max_offset := p2roundup io_end (VCBS tun)
  vc.map (fun ve =>
    if min_offset ≤ ve.ve_offset ∧ ve.ve_offset < max_offset then
      let truncate := max ve.ve_offset io_start
      let stop := min (ve.ve_offset + VCBS tun) io_end
      if ve.ve_fill.isSome then { ve with ve_missed_update := true }
      else
        { ve with ve_data := (writeSeg ve.ve_data (truncate - ve.ve_offset)
            ((wdata.drop (truncate - io_start)).take (stop - truncate))) }
    else ve)

/-- Embeds `vdev_cache_purge`: evicts `avl_first(&vc->vc_offset_tree)`
until the cache is empty, leaving no entries. -/
def vdev_cache_purge (_vc : List VdevCacheEntry) : List VdevCacheEntry := []

/-- One observable transition of a cache: a read request entering
`vdev_cache_read`, a fill child read completing into
`vdev_cache_fill`, a device write completion mirrored by
`vdev_cache_write`, or `vdev_cache_purge`.  `lbolt` is the external
clock, free at every step. -/
inductive VdevCacheStep (tun : VdevCacheTunables) :
    List VdevCacheEntry → List VdevCacheEntry → Prop where
  | read (lbolt : Nat) (z : ZioReq) (s : List VdevCacheEntry) :
      VdevCacheStep tun s (vdev_cache_read tun lbolt s z).cache
  | fillDone (lbolt off err : Nat) (fdata : List Nat) (s : List VdevCacheEntry) :
      VdevCacheStep tun s (vdev_cache_fill tun lbolt s off err fdata).cache
  | writeDone (off sz : Nat) (wdata : List Nat) (s : List VdevCacheEntry) :
      VdevCacheStep tun s (vdev_cache_write tun s off sz wdata)
  | purge (s : List VdevCacheEntry) :
      VdevCacheStep tun s (vdev_cache_purge s)

/-- The cache states reachable from the empty cache built by
`vdev_cache_init` under any interleaving of the four operations. -/
inductive VdevCacheReachable (tun : VdevCacheTunables) : List VdevCacheEntry → Prop where
  | init : VdevCacheReachable tun []
  | step {s t : List VdevCacheEntry} : VdevCacheReachable tun s →
      VdevCacheStep tun s t → VdevCacheReachable tun t

/-! ### Arithmetic facts about the P2 macros -/

theorem U64_pos : 0 < U64 := by decide

theorem VCBS_eq_two_pow (tun : VdevCacheTunables) :
    VCBS tun = 2 ^ tun.zfs_vdev_cache_bshift :=
  Nat.one_shiftLeft _

theorem VCBS_pos (tun : VdevCacheTunables) : 0 < VCBS tun := by
  rw [VCBS_eq_two_pow]; exact Nat.two_pow_pos _

theorem p2align_eq_mul (x b : Nat) : p2align x b = b * (x / b) := by
  have h := Nat.div_add_mod x b
  unfold p2align
  omega

theorem p2align_mod (x b : Nat) : p2align x b % b = 0 := by
  rw [p2align_eq_mul, Nat.mul_mod_right]

theorem p2align_of_mod_eq_zero {x b : Nat} (h : x % b = 0) : p2align x b = x := by
  unfold p2align; omega

/-- High bits all clear forces the value below the power of two. -/
theorem lt_two_pow_of_high_bits_false {x k : Nat}
    (h : ∀ i, k ≤ i → x.testBit i = false) : x < 2 ^ k := by
  have hz : x >>> k = 0 := by
    apply Nat.eq_of_testBit_eq
    intro i
    rw [Nat.testBit_shiftRight, Nat.zero_testBit, h (k + i) (Nat.le_add_right k i)]
  have hdiv : x / 2 ^ k = 0 := by
    rw [← Nat.shiftRight_eq_div_pow]; exact hz
  have hmod := Nat.div_add_mod x (2 ^ k)
  rw [hdiv, Nat.mul_zero, Nat.zero_add] at hmod
  have hm : x % 2 ^ k < 2 ^ k := Nat.mod_lt x (Nat.two_pow_pos k)
  omega

/-- Two numbers xor below `2 ^ k` exactly when they lie in the same
`2 ^ k`-block. -/
theorem xor_lt_two_pow_iff_div_eq (k x y : Nat) :
    x ^^^ y < 2 ^ k ↔ x / 2 ^ k = y / 2 ^ k := by
  constructor
  · intro h
    have hsh : x >>> k = y >>> k := by
      apply Nat.eq_of_testBit_eq
      intro i
      rw [Nat.testBit_shiftRight, Nat.testBit_shiftRight]
      have hb : (x ^^^ y).testBit (k + i) = false :=
        Nat.testBit_lt_two_pow
          (lt_of_lt_of_le h (Nat.pow_le_pow_right (by omega) (Nat.le_add_right k i)))
      rw [Nat.testBit_xor] at hb
      simpa using hb
    rw [Nat.shiftRight_eq_div_pow, Nat.shiftRight_eq_div_pow] at hsh
    exact hsh
  · intro h
    apply lt_two_pow_of_high_bits_false
    intro i hi
    have hsh : x >>> k = y >>> k := by
      rw [Nat.shiftRight_eq_div_pow, Nat.shiftRight_eq_div_pow]; exact h
    have hbit : x.testBit i = y.testBit i := by
      have hik : i = k + (i - k) := by omega
      rw [hik, ← Nat.testBit_shiftRight, ← Nat.testBit_shiftRight, hsh]
    rw [Nat.testBit_xor, hbit]
    simp

/-- The `P2CROSS` test for a power-of-two alignment is the
block-number comparison the specification states. -/
theorem p2cross_eq_true_iff (k x y : Nat) :
    p2cross x y (2 ^ k) = true ↔ x / 2 ^ k ≠ y / 2 ^ k := by
  have hpos : 0 < 2 ^ k := Nat.two_pow_pos k
  have h1 : (2 ^ k - 1 < x ^^^ y) ↔ ¬(x ^^^ y < 2 ^ k) := by omega
  simp only [p2cross, decide_eq_true_eq, h1, xor_lt_two_pow_iff_div_eq]

theorem p2cross_eq_false_iff (k x y : Nat) :
    p2cross x y (2 ^ k) = false ↔ x / 2 ^ k = y / 2 ^ k := by
  rw [← Bool.not_eq_true, p2cross_eq_true_iff]
  exact not_ne_iff

/-- The straddle-test operand `io_offset + io_size - 1`, computed on
`uint64_t`, is the plain natural-number value when the request is
nonempty and does not overflow. -/
theorem straddle_operand_eq {off sz : Nat} (h1 : 1 ≤ sz) (h2 : off + sz ≤ U64) :
    (off + sz + (U64 - 1)) % U64 = off + sz - 1 := by
  have he : off + sz + (U64 - 1) = (off + sz - 1) + U64 := by
    have := U64_pos; omega
  rw [he, Nat.add_mod_right, Nat.mod_eq_of_lt (by omega)]

/-! ### List-level helper lemmas about the cache container -/

theorem avlFirstLastused_eq_none {l : List VdevCacheEntry} :
    avlFirstLastused l = none ↔ l = [] := by
  cases l with
  | nil => simp [avlFirstLastused]
  | cons e es =>
    simp only [avlFirstLastused]
    cases avlFirstLastused es <;> simp

theorem avlFirstLastused_mem {l : List VdevCacheEntry} :
    ∀ {m : VdevCacheEntry}, avlFirstLastused l = some m → m ∈ l := by
  induction l with
  | nil => intro m h; simp [avlFirstLastused] at h
  | cons x xs ih =>
    intro m h
    simp only [avlFirstLastused] at h
    cases hxs : avlFirstLastused xs with
    | none =>
      rw [hxs] at h
      simp only [Option.some.injEq] at h
      simp [h]
    | some m' =>
      rw [hxs] at h
      simp only [Option.some.injEq] at h
      by_cases hlt : lastusedLt m' x = true
      · rw [if_pos hlt] at h
        exact List.mem_cons_of_mem x (h ▸ ih hxs)
      · rw [if_neg hlt] at h
        simp [h]

theorem lastusedLt_iff (a b : VdevCacheEntry) :
    lastusedLt a b = true ↔
      a.ve_lastused < b.ve_lastused ∨
        (a.ve_lastused = b.ve_lastused ∧ a.ve_offset < b.ve_offset) := by
  simp [lastusedLt]

theorem lastusedLt_eq_false_iff (a b : VdevCacheEntry) :
    lastusedLt a b = false ↔
      ¬(a.ve_lastused < b.ve_lastused ∨
        (a.ve_lastused = b.ve_lastused ∧ a.ve_offset < b.ve_offset)) := by
  rw [← lastusedLt_iff]
  cases lastusedLt a b <;> simp

/-- The entry `avl_first` returns is minimal for the lastused
comparator: no entry of the cache is strictly older. -/
theorem avlFirstLastused_min {l : List VdevCacheEntry} :
    ∀ {m : VdevCacheEntry}, avlFirstLastused l = some m →
      ∀ e ∈ l, lastusedLt e m = false := by
  induction l with
  | nil => simp
  | cons x xs ih =>
    intro m h
    simp only [avlFirstLastused] at h
    cases hxs : avlFirstLastused xs with
    | none =>
      rw [hxs] at h
      simp only [Option.some.injEq] at h
      subst h
      rw [avlFirstLastused_eq_none] at hxs
      subst hxs
      intro e he
      simp only [List.mem_singleton] at he
      subst he
      rw [lastusedLt_eq_false_iff]
      omega
    | some m' =>
      rw [hxs] at h
      simp only [Option.some.injEq] at h
      intro e he
      rcases List.mem_cons.mp he with he | he
      · subst he
        by_cases hlt : lastusedLt m' e = true
        · rw [if_pos hlt] at h
          subst h
          rw [lastusedLt_iff] at hlt
          rw [lastusedLt_eq_false_iff]
          omega
        · rw [if_neg hlt] at h
          subst h
          rw [lastusedLt_eq_false_iff]
          omega
      · have hmin := ih hxs e he
        by_cases hlt : lastusedLt m' x = true
        · rw [if_pos hlt] at h
          subst h
          exact hmin
        · rw [if_neg hlt] at h
          subst h
          have hlt' : lastusedLt m' x = false := Bool.eq_false_iff.mpr hlt
          rw [lastusedLt_eq_false_iff] at hmin hlt' ⊢
          omega

/-! ### Lookup, replace and erase interactions -/

theorem avlFindOffset_mem {vc : List VdevCacheEntry} {off : Nat} {ve : VdevCacheEntry}
    (h : avlFindOffset vc off = some ve) : ve ∈ vc :=
  List.mem_of_find?_eq_some h

theorem avlFindOffset_offset {vc : List VdevCacheEntry} {off : Nat} {ve : VdevCacheEntry}
    (h : avlFindOffset vc off = some ve) : ve.ve_offset = off := by
  have := List.find?_some h
  simpa using this

theorem avlFindOffset_nil (off : Nat) : avlFindOffset [] off = none := rfl

theorem avlFindOffset_eq_none {vc : List VdevCacheEntry} {off : Nat}
    (h : avlFindOffset vc off = none) : ∀ e ∈ vc, e.ve_offset ≠ off := by
  intro e he
  have := List.find?_eq_none.mp h e he
  simpa using this

/-- Replacing the entry found at `off` is what a subsequent lookup at
`off` sees. -/
theorem avlFindOffset_replaceEntry_same {vc : List VdevCacheEntry} {off : Nat}
    {ve ve' : VdevCacheEntry} (h : avlFindOffset vc off = some ve)
    (h' : ve'.ve_offset = off) :
    avlFindOffset (replaceEntry vc off ve') off = some ve' := by
  induction vc with
  | nil => simp [avlFindOffset] at h
  | cons x xs ih =>
    unfold replaceEntry avlFindOffset at ih ⊢
    unfold avlFindOffset at h
    rw [List.map_cons]
    by_cases hx : (x.ve_offset == off) = true
    · rw [if_pos hx]
      have hv : (ve'.ve_offset == off) = true := by simp [h']
      simp only [List.find?_cons, hv]
    · rw [if_neg hx]
      have hx' : (x.ve_offset == off) = false := Bool.eq_false_iff.mpr hx
      simp only [List.find?_cons, hx'] at h ⊢
      exact ih h

/-- A replacement at a different offset is invisible to a lookup,
provided the replacement keeps that other offset. -/
theorem avlFindOffset_replaceEntry_other {vc : List VdevCacheEntry} {off co : Nat}
    {ve' : VdevCacheEntry} (hne : co ≠ off) (h' : ve'.ve_offset = co) :
    avlFindOffset (replaceEntry vc co ve') off = avlFindOffset vc off := by
  induction vc with
  | nil => rfl
  | cons x xs ih =>
    unfold replaceEntry avlFindOffset at ih ⊢
    rw [List.map_cons]
    by_cases hx : (x.ve_offset == co) = true
    · rw [if_pos hx]
      have hxco : x.ve_offset = co := by simpa using hx
      have hp1 : (ve'.ve_offset == off) = false := by simp [h', hne]
      have hp2 : (x.ve_offset == off) = false := by simp [hxco, hne]
      simp only [List.find?_cons, hp1, hp2]
      exact ih
    · rw [if_neg hx]
      cases hp : (x.ve_offset == off) with
      | true => simp only [List.find?_cons, hp]
      | false =>
        simp only [List.find?_cons, hp]
        exact ih

theorem avlFindOffset_append_left {vc vc' : List VdevCacheEntry} {off : Nat}
    {ve : VdevCacheEntry} (h : avlFindOffset vc off = some ve) :
    avlFindOffset (vc ++ vc') off = some ve := by
  simp only [avlFindOffset] at h ⊢
  rw [List.find?_append, h]
  rfl

/-- Erasing an element that cannot match the lookup leaves the lookup
unchanged. -/
theorem avlFindOffset_eraseP_other {vc : List VdevCacheEntry} {off mo : Nat}
    (hne : mo ≠ off) :
    avlFindOffset (vc.eraseP (fun e => e.ve_offset == mo)) off = avlFindOffset vc off := by
  induction vc with
  | nil => rfl
  | cons x xs ih =>
    by_cases hx : x.ve_offset = mo
    · have hq : (x.ve_offset == mo) = true := by simp [hx]
      have hp : (x.ve_offset == off) = false := by simp [hx, hne]
      simp [avlFindOffset, List.eraseP_cons, hq, List.find?, hp]
    · have hq : (x.ve_offset == mo) = false := by simp [hx]
      simp only [avlFindOffset, List.eraseP_cons, hq, List.find?] at ih ⊢
      cases hp : (x.ve_offset == off) <;> simp [hp]
      exact ih

/-- With offsets unique, every element left after evicting `off` has a
different offset. -/
theorem mem_evict_offset_ne {vc : List VdevCacheEntry} {off : Nat}
    (hnd : (vc.map (fun e => e.ve_offset)).Nodup) {e : VdevCacheEntry}
    (he : e ∈ vdev_cache_evict vc off) : e.ve_offset ≠ off := by
  induction vc with
  | nil => simp [vdev_cache_evict] at he
  | cons x xs ih =>
    simp only [List.map, List.nodup_cons] at hnd
    by_cases hx : x.ve_offset = off
    · have hq : (x.ve_offset == off) = true := by simp [hx]
      simp only [vdev_cache_evict, List.eraseP_cons, hq] at he
      intro heo
      have : e.ve_offset ∈ xs.map (fun e => e.ve_offset) := List.mem_map_of_mem _ he
      rw [heo, ← hx] at this
      exact hnd.1 this
    · have hq : (x.ve_offset == off) = false := by simp [hx]
      simp only [vdev_cache_evict, List.eraseP_cons, hq] at he
      rcases List.mem_cons.mp he with he | he
      · subst he; exact hx
      · exact ih hnd.2 he

/-- Membership in a replaced cache: the new entry, or an old entry at a
different offset. -/
theorem mem_replaceEntry {vc : List VdevCacheEntry} {off : Nat} {ve e : VdevCacheEntry}
    (h : e ∈ replaceEntry vc off ve) : e = ve ∨ (e ∈ vc ∧ e.ve_offset ≠ off) := by
  simp only [replaceEntry, List.mem_map] at h
  obtain ⟨a, ha, hae⟩ := h
  by_cases hao : a.ve_offset = off
  · left
    rw [← hae]
    simp [hao]
  · right
    have : (a.ve_offset == off) = false := by simp [hao]
    rw [this] at hae
    simp at hae
    subst hae
    exact ⟨ha, hao⟩

theorem length_replaceEntry (vc : List VdevCacheEntry) (off : Nat) (ve : VdevCacheEntry) :
    (replaceEntry vc off ve).length = vc.length :=
  List.length_map _ _

/-- Replacing at `off` with an entry that keeps offset `off` preserves
the offset image of the cache. -/
theorem map_offset_replaceEntry {vc : List VdevCacheEntry} {off : Nat}
    {ve : VdevCacheEntry} (h : ve.ve_offset = off) :
    (replaceEntry vc off ve).map (fun e => e.ve_offset) = vc.map (fun e => e.ve_offset) := by
  simp only [replaceEntry, List.map_map]
  apply List.map_congr_left
  intro a _
  by_cases hao : a.ve_offset = off
  · simp [hao, h]
  · simp [hao]

theorem mem_of_mem_evict {vc : List VdevCacheEntry} {off : Nat} {e : VdevCacheEntry}
    (h : e ∈ vdev_cache_evict vc off) : e ∈ vc :=
  (List.eraseP_sublist vc).mem h

/-! ### Behaviour of the hit procedure and the fill loop -/

theorem vdev_cache_hit_fst (tun : VdevCacheTunables) (lbolt : Nat)
    (ve : VdevCacheEntry) (z : ZioReq) :
    (vdev_cache_hit tun lbolt ve z).1.ve_offset = ve.ve_offset ∧
    (vdev_cache_hit tun lbolt ve z).1.ve_fill = ve.ve_fill ∧
    (vdev_cache_hit tun lbolt ve z).1.ve_missed_update = ve.ve_missed_update ∧
    (vdev_cache_hit tun lbolt ve z).1.ve_data = ve.ve_data ∧
    (vdev_cache_hit tun lbolt ve z).1.ve_hits = ve.ve_hits + 1 := by
  unfold vdev_cache_hit
  by_cases h : ve.ve_lastused ≠ lbolt <;> simp [h]

theorem vdev_cache_hit_snd (tun : VdevCacheTunables) (lbolt : Nat)
    (ve : VdevCacheEntry) (z : ZioReq) :
    (vdev_cache_hit tun lbolt ve z).2 =
      { z with io_data :=
          (ve.ve_data.drop (p2phase z.io_offset (VCBS tun))).take z.io_size } := by
  unfold vdev_cache_hit
  by_cases h : ve.ve_lastused ≠ lbolt <;> simp [h]

theorem fillHitLoop_fst (tun : VdevCacheTunables) (lbolt : Nat) :
    ∀ (ds : List ZioReq) (ve : VdevCacheEntry),
      (fillHitLoop tun lbolt ve ds).1.ve_offset = ve.ve_offset ∧
      (fillHitLoop tun lbolt ve ds).1.ve_fill = ve.ve_fill ∧
      (fillHitLoop tun lbolt ve ds).1.ve_missed_update = ve.ve_missed_update ∧
      (fillHitLoop tun lbolt ve ds).1.ve_data = ve.ve_data ∧
      (fillHitLoop tun lbolt ve ds).1.ve_hits = ve.ve_hits + ds.length := by
  intro ds
  induction ds with
  | nil => intro ve; simp [fillHitLoop]
  | cons d ds ih =>
    intro ve
    obtain ⟨h1, h2, h3, h4, h5⟩ := vdev_cache_hit_fst tun lbolt ve d
    obtain ⟨g1, g2, g3, g4, g5⟩ := ih (vdev_cache_hit tun lbolt ve d).1
    unfold fillHitLoop
    refine ⟨?_, ?_, ?_, ?_, ?_⟩
    · rw [g1, h1]
    · rw [g2, h2]
    · rw [g3, h3]
    · rw [g4, h4]
    · rw [g5, h5, List.length_cons]
      omega

theorem fillHitLoop_snd (tun : VdevCacheTunables) (lbolt : Nat) :
    ∀ (ds : List ZioReq) (ve : VdevCacheEntry),
      (fillHitLoop tun lbolt ve ds).2 =
        ds.map (fun d =>
          { d with io_data :=
              (ve.ve_data.drop (p2phase d.io_offset (VCBS tun))).take d.io_size }) := by
  intro ds
  induction ds with
  | nil => intro ve; simp [fillHitLoop]
  | cons d ds ih =>
    intro ve
    obtain ⟨h1, h2, h3, h4, h5⟩ := vdev_cache_hit_fst tun lbolt ve d
    unfold fillHitLoop
    rw [List.map_cons]
    refine congrArg₂ _ ?_ ?_
    · exact vdev_cache_hit_snd tun lbolt ve d
    · rw [ih (vdev_cache_hit tun lbolt ve d).1, h4]

/-! ### Case analysis of the allocate path -/

theorem vdev_cache_allocate_eq_some {tun : VdevCacheTunables} {lbolt io_offset : Nat}
    {vc : List VdevCacheEntry} {ve : VdevCacheEntry} {vc1 : List VdevCacheEntry}
    (h : vdev_cache_allocate tun lbolt vc io_offset = some (ve, vc1)) :
    ve = newCacheEntry tun lbolt io_offset ∧ tun.zfs_vdev_cache_size ≠ 0 ∧
      ((vc.length <<< tun.zfs_vdev_cache_bshift ≤ tun.zfs_vdev_cache_size ∧
        vc1 = vc ++ [ve]) ∨
       (tun.zfs_vdev_cache_size < vc.length <<< tun.zfs_vdev_cache_bshift ∧
        ∃ m, avlFirstLastused vc = some m ∧ m.ve_fill = none ∧
          vc1 = vdev_cache_evict vc m.ve_offset ++ [ve])) := by
  unfold vdev_cache_allocate at h
  by_cases h0 : tun.zfs_vdev_cache_size = 0
  · rw [if_pos h0] at h
    exact absurd h (by simp)
  · rw [if_neg h0] at h
    by_cases hc : tun.zfs_vdev_cache_size < vc.length <<< tun.zfs_vdev_cache_bshift
    · rw [if_pos hc] at h
      cases hm : avlFirstLastused vc with
      | none =>
        rw [avlFirstLastused_eq_none] at hm
        subst hm
        simp at hc
      | some m =>
        rw [hm] at h
        dsimp only at h
        by_cases hf : m.ve_fill.isSome
        · rw [if_pos hf] at h
          exact absurd h (by simp)
        · rw [if_neg hf] at h
          dsimp only at h
          simp only [Option.some.injEq, Prod.mk.injEq] at h
          obtain ⟨hve, hvc1⟩ := h
          refine ⟨hve.symm, h0, Or.inr ⟨hc, m, rfl, ?_, ?_⟩⟩
          · cases hmf : m.ve_fill with
            | none => rfl
            | some l => rw [hmf] at hf; simp at hf
          · rw [← hvc1, hve]
    · rw [if_neg hc] at h
      simp only [Option.some.injEq, Prod.mk.injEq] at h
      obtain ⟨hve, hvc1⟩ := h
      exact ⟨hve.symm, h0, Or.inl ⟨by omega, by rw [← hvc1, hve]⟩⟩

theorem vdev_cache_allocate_none_of_first_filling {tun : VdevCacheTunables}
    {lbolt io_offset : Nat} {vc : List VdevCacheEntry} {m : VdevCacheEntry}
    (hc : tun.zfs_vdev_cache_size < vc.length <<< tun.zfs_vdev_cache_bshift)
    (hm : avlFirstLastused vc = some m) (hf : m.ve_fill.isSome) :
    vdev_cache_allocate tun lbolt vc io_offset = none := by
  unfold vdev_cache_allocate
  by_cases h0 : tun.zfs_vdev_cache_size = 0
  · rw [if_pos h0]
  · rw [if_neg h0, if_pos hc, hm]
    dsimp only
    rw [if_pos hf]

/-! ### Equations for the fill path -/

theorem vdev_cache_fill_not_found {tun : VdevCacheTunables} {lbolt off err : Nat}
    {vc : List VdevCacheEntry} {fdata : List Nat}
    (h : avlFindOffset vc off = none) :
    vdev_cache_fill tun lbolt vc off err fdata = { cache := vc, resumed := [] } := by
  unfold vdev_cache_fill
  rw [h]

theorem vdev_cache_fill_no_fill {tun : VdevCacheTunables} {lbolt off err : Nat}
    {vc : List VdevCacheEntry} {fdata : List Nat} {ve : VdevCacheEntry}
    (hfind : avlFindOffset vc off = some ve) (hfl : ve.ve_fill = none) :
    vdev_cache_fill tun lbolt vc off err fdata = { cache := vc, resumed := [] } := by
  unfold vdev_cache_fill
  rw [hfind]
  dsimp only
  rw [hfl]

theorem vdev_cache_fill_resumed {tun : VdevCacheTunables} {lbolt off err : Nat}
    {vc : List VdevCacheEntry} {fdata : List Nat} {ve : VdevCacheEntry} {dl : List ZioReq}
    (hfind : avlFindOffset vc off = some ve) (hfl : ve.ve_fill = some dl) :
    (vdev_cache_fill tun lbolt vc off err fdata).resumed =
      dl.map (fun d =>
        { d with
          io_data := (fdata.drop (p2phase d.io_offset (VCBS tun))).take d.io_size,
          io_error := err }) := by
  unfold vdev_cache_fill
  rw [hfind]
  dsimp only
  rw [hfl]
  dsimp only
  rw [fillHitLoop_snd, List.map_map]
  rfl

theorem vdev_cache_fill_cache {tun : VdevCacheTunables} {lbolt off err : Nat}
    {vc : List VdevCacheEntry} {fdata : List Nat} {ve : VdevCacheEntry} {dl : List ZioReq}
    (hfind : avlFindOffset vc off = some ve) (hfl : ve.ve_fill = some dl) :
    (vdev_cache_fill tun lbolt vc off err fdata).cache =
      if err ≠ 0 ∨ ve.ve_missed_update = true then
        vdev_cache_evict
          (replaceEntry vc off
            (fillHitLoop tun lbolt { ve with ve_data := fdata, ve_fill := none } dl).1) off
      else
        replaceEntry vc off
          (fillHitLoop tun lbolt { ve with ve_data := fdata, ve_fill := none } dl).1 := by
  unfold vdev_cache_fill
  rw [hfind]
  dsimp only
  rw [hfl]
  dsimp only
  obtain ⟨h1, h2, h3, h4, h5⟩ :=
    fillHitLoop_fst tun lbolt dl { ve with ve_data := fdata, ve_fill := none }
  rw [h3]

/-! ### Equations for the read path -/

theorem vdev_cache_read_dont_cache {tun : VdevCacheTunables} {lbolt : Nat}
    {vc : List VdevCacheEntry} {z : ZioReq} (h : z.io_dont_cache = true) :
    vdev_cache_read tun lbolt vc z = { code := .EINVAL, cache := vc, resumed := none } := by
  simp [vdev_cache_read, h]

theorem vdev_cache_read_too_large {tun : VdevCacheTunables} {lbolt : Nat}
    {vc : List VdevCacheEntry} {z : ZioReq} (h1 : z.io_dont_cache = false)
    (h2 : tun.zfs_vdev_cache_max < z.io_size) :
    vdev_cache_read tun lbolt vc z = { code := .EOVERFLOW, cache := vc, resumed := none } := by
  simp [vdev_cache_read, h1, h2]

theorem vdev_cache_read_straddle {tun : VdevCacheTunables} {lbolt : Nat}
    {vc : List VdevCacheEntry} {z : ZioReq} (h1 : z.io_dont_cache = false)
    (h2 : ¬tun.zfs_vdev_cache_max < z.io_size)
    (h3 : p2cross z.io_offset ((z.io_offset + z.io_size + (U64 - 1)) % U64) (VCBS tun) = true) :
    vdev_cache_read tun lbolt vc z = { code := .EXDEV, cache := vc, resumed := none } := by
  simp [vdev_cache_read, h1, h2, h3]

theorem vdev_cache_read_stale {tun : VdevCacheTunables} {lbolt : Nat}
    {vc : List VdevCacheEntry} {z : ZioReq} {ve : VdevCacheEntry}
    (h1 : z.io_dont_cache = false) (h2 : ¬tun.zfs_vdev_cache_max < z.io_size)
    (h3 : p2cross z.io_offset ((z.io_offset + z.io_size + (U64 - 1)) % U64) (VCBS tun) = false)
    (hfind : avlFindOffset vc (p2align z.io_offset (VCBS tun)) = some ve)
    (hm : ve.ve_missed_update = true) :
    vdev_cache_read tun lbolt vc z = { code := .ESTALE, cache := vc, resumed := none } := by
  simp [vdev_cache_read, h1, h2, h3, hfind, hm]

theorem vdev_cache_read_delegate {tun : VdevCacheTunables} {lbolt : Nat}
    {vc : List VdevCacheEntry} {z : ZioReq} {ve : VdevCacheEntry} {dl : List ZioReq}
    (h1 : z.io_dont_cache = false) (h2 : ¬tun.zfs_vdev_cache_max < z.io_size)
    (h3 : p2cross z.io_offset ((z.io_offset + z.io_size + (U64 - 1)) % U64) (VCBS tun) = false)
    (hfind : avlFindOffset vc (p2align z.io_offset (VCBS tun)) = some ve)
    (hm : ve.ve_missed_update = false) (hfl : ve.ve_fill = some dl) :
    vdev_cache_read tun lbolt vc z =
      { code := .OK
        cache := replaceEntry vc (p2align z.io_offset (VCBS tun))
          { ve with ve_fill := some (z :: dl) }
        resumed := none } := by
  simp [vdev_cache_read, h1, h2, h3, hfind, hm, hfl]

theorem vdev_cache_read_hit_eq {tun : VdevCacheTunables} {lbolt : Nat}
    {vc : List VdevCacheEntry} {z : ZioReq} {ve : VdevCacheEntry}
    (h1 : z.io_dont_cache = false) (h2 : ¬tun.zfs_vdev_cache_max < z.io_size)
    (h3 : p2cross z.io_offset ((z.io_offset + z.io_size + (U64 - 1)) % U64) (VCBS tun) = false)
    (hfind : avlFindOffset vc (p2align z.io_offset (VCBS tun)) = some ve)
    (hm : ve.ve_missed_update = false) (hfl : ve.ve_fill = none) :
    vdev_cache_read tun lbolt vc z =
      { code := .OK
        cache := replaceEntry vc (p2align z.io_offset (VCBS tun)) (vdev_cache_hit tun lbolt ve z).1
        resumed := some (vdev_cache_hit tun lbolt ve z).2 } := by
  simp [vdev_cache_read, h1, h2, h3, hfind, hm, hfl]

theorem vdev_cache_read_nomem {tun : VdevCacheTunables} {lbolt : Nat}
    {vc : List VdevCacheEntry} {z : ZioReq}
    (h1 : z.io_dont_cache = false) (h2 : ¬tun.zfs_vdev_cache_max < z.io_size)
    (h3 : p2cross z.io_offset ((z.io_offset + z.io_size + (U64 - 1)) % U64) (VCBS tun) = false)
    (hfind : avlFindOffset vc (p2align z.io_offset (VCBS tun)) = none)
    (halloc : vdev_cache_allocate tun lbolt vc z.io_offset = none) :
    vdev_cache_read tun lbolt vc z = { code := .ENOMEM, cache := vc, resumed := none } := by
  simp [vdev_cache_read, h1, h2, h3, hfind, halloc]

theorem vdev_cache_read_miss {tun : VdevCacheTunables} {lbolt : Nat}
    {vc : List VdevCacheEntry} {z : ZioReq} {ve : VdevCacheEntry} {vc1 : List VdevCacheEntry}
    (h1 : z.io_dont_cache = false) (h2 : ¬tun.zfs_vdev_cache_max < z.io_size)
    (h3 : p2cross z.io_offset ((z.io_offset + z.io_size + (U64 - 1)) % U64) (VCBS tun) = false)
    (hfind : avlFindOffset vc (p2align z.io_offset (VCBS tun)) = none)
    (halloc : vdev_cache_allocate tun lbolt vc z.io_offset = some (ve, vc1)) :
    vdev_cache_read tun lbolt vc z =
      { code := .OK
        cache := replaceEntry vc1 (p2align z.io_offset (VCBS tun)) { ve with ve_fill := some [z] }
        resumed := none } := by
  simp [vdev_cache_read, h1, h2, h3, hfind, halloc]

/-- Every cache state `vdev_cache_read` can produce, by branch. -/
theorem vdev_cache_read_cache_cases (tun : VdevCacheTunables) (lbolt : Nat)
    (vc : List VdevCacheEntry) (z : ZioReq) :
    (vdev_cache_read tun lbolt vc z).cache = vc ∨
    (∃ ve dl, avlFindOffset vc (p2align z.io_offset (VCBS tun)) = some ve ∧
      ve.ve_missed_update = false ∧ ve.ve_fill = some dl ∧
      (vdev_cache_read tun lbolt vc z).cache =
        replaceEntry vc (p2align z.io_offset (VCBS tun)) { ve with ve_fill := some (z :: dl) }) ∨
    (∃ ve, avlFindOffset vc (p2align z.io_offset (VCBS tun)) = some ve ∧
      ve.ve_missed_update = false ∧ ve.ve_fill = none ∧
      (vdev_cache_read tun lbolt vc z).cache =
        replaceEntry vc (p2align z.io_offset (VCBS tun)) (vdev_cache_hit tun lbolt ve z).1) ∨
    (∃ ve vc1, avlFindOffset vc (p2align z.io_offset (VCBS tun)) = none ∧
      vdev_cache_allocate tun lbolt vc z.io_offset = some (ve, vc1) ∧
      (vdev_cache_read tun lbolt vc z).cache =
        replaceEntry vc1 (p2align z.io_offset (VCBS tun)) { ve with ve_fill := some [z] }) := by
  by_cases h1 : z.io_dont_cache = true
  · left
    rw [vdev_cache_read_dont_cache h1]
  · rw [Bool.not_eq_true] at h1
    by_cases h2 : tun.zfs_vdev_cache_max < z.io_size
    · left
      rw [vdev_cache_read_too_large h1 h2]
    · cases h3 : p2cross z.io_offset ((z.io_offset + z.io_size + (U64 - 1)) % U64) (VCBS tun) with
      | true =>
        left
        rw [vdev_cache_read_straddle h1 h2 h3]
      | false =>
        cases hfind : avlFindOffset vc (p2align z.io_offset (VCBS tun)) with
        | some ve =>
          cases hm : ve.ve_missed_update with
          | true =>
            left
            rw [vdev_cache_read_stale h1 h2 h3 hfind hm]
          | false =>
            cases hfl : ve.ve_fill with
            | some dl =>
              right; left
              exact ⟨ve, dl, rfl, hm, hfl,
                by rw [vdev_cache_read_delegate h1 h2 h3 hfind hm hfl]⟩
            | none =>
              right; right; left
              exact ⟨ve, rfl, hm, hfl,
                by rw [vdev_cache_read_hit_eq h1 h2 h3 hfind hm hfl]⟩
        | none =>
          cases halloc : vdev_cache_allocate tun lbolt vc z.io_offset with
          | none =>
            left
            rw [vdev_cache_read_nomem h1 h2 h3 hfind halloc]
          | some p =>
            right; right; right
            exact ⟨p.1, p.2, rfl, rfl,
              by rw [vdev_cache_read_miss h1 h2 h3 hfind halloc]⟩

/-- Every cache state `vdev_cache_fill` can produce, by branch. -/
theorem vdev_cache_fill_cache_cases (tun : VdevCacheTunables) (lbolt : Nat)
    (vc : List VdevCacheEntry) (off err : Nat) (fdata : List Nat) :
    (vdev_cache_fill tun lbolt vc off err fdata).cache = vc ∨
    (∃ ve dl, avlFindOffset vc off = some ve ∧ ve.ve_fill = some dl ∧
      ((vdev_cache_fill tun lbolt vc off err fdata).cache =
         replaceEntry vc off
           (fillHitLoop tun lbolt { ve with ve_data := fdata, ve_fill := none } dl).1 ∨
       (vdev_cache_fill tun lbolt vc off err fdata).cache =
         vdev_cache_evict
           (replaceEntry vc off
             (fillHitLoop tun lbolt { ve with ve_data := fdata, ve_fill := none } dl).1)
           off)) := by
  cases hfind : avlFindOffset vc off with
  | none =>
    left
    rw [vdev_cache_fill_not_found hfind]
  | some ve =>
    cases hfl : ve.ve_fill with
    | none =>
      left
      rw [vdev_cache_fill_no_fill hfind hfl]
    | some dl =>
      right
      refine ⟨ve, dl, rfl, hfl, ?_⟩
      rw [vdev_cache_fill_cache hfind hfl]
      by_cases hcond : err ≠ 0 ∨ ve.ve_missed_update = true
      · right
        rw [if_pos hcond]
      · left
        rw [if_neg hcond]

/-! ### The reachable-state invariant -/

/-- Per-entry well-formedness: an idle entry has recorded at least one
hit (the request that allocated it is always on the fill's delegate
list and is served at fill completion), and an in-flight fill always
carries at least that allocating request as a delegate. -/
def EntryWF (e : VdevCacheEntry) : Prop :=
  (e.ve_fill = none → 1 ≤ e.ve_hits) ∧ ∀ dl, e.ve_fill = some dl → dl ≠ []

/-- The cache invariant: every entry is well-formed, a disabled cache
(`zfs_vdev_cache_size == 0`) holds no entries, and the total cached
bytes never exceed `zfs_vdev_cache_size` by more than one block
(allocate evicts only once the size is already past the limit). -/
def CacheWF (tun : VdevCacheTunables) (s : List VdevCacheEntry) : Prop :=
  (∀ e ∈ s, EntryWF e) ∧
  (tun.zfs_vdev_cache_size = 0 → s = []) ∧
  s.length <<< tun.zfs_vdev_cache_bshift ≤ tun.zfs_vdev_cache_size + VCBS tun

theorem CacheWF_read {tun : VdevCacheTunables} {lbolt : Nat}
    {vc : List VdevCacheEntry} {z : ZioReq} (h : CacheWF tun vc) :
    CacheWF tun (vdev_cache_read tun lbolt vc z).cache := by
  obtain ⟨hent, hzero, hlen⟩ := h
  rcases vdev_cache_read_cache_cases tun lbolt vc z with
    hc | ⟨ve, dl, hfind, hm, hfl, hc⟩ | ⟨ve, hfind, hm, hfl, hc⟩ | ⟨ve, vc1, hfind, halloc, hc⟩
  · rw [hc]
    exact ⟨hent, hzero, hlen⟩
  · rw [hc]
    refine ⟨?_, ?_, ?_⟩
    · intro e he
      rcases mem_replaceEntry he with rfl | ⟨he, _⟩
      · exact ⟨fun hno => by simp at hno, fun dl' hdl' => by
          simp only [Option.some.injEq] at hdl'
          rw [← hdl']
          exact List.cons_ne_nil z dl⟩
      · exact hent e he
    · intro h0
      rw [hzero h0] at hfind
      exact absurd hfind (by simp [avlFindOffset])
    · rw [length_replaceEntry]
      exact hlen
  · rw [hc]
    obtain ⟨g1, g2, g3, g4, g5⟩ := vdev_cache_hit_fst tun lbolt ve z
    refine ⟨?_, ?_, ?_⟩
    · intro e he
      rcases mem_replaceEntry he with rfl | ⟨he, _⟩
      · constructor
        · intro _
          rw [g5]
          omega
        · intro dl' hdl'
          rw [g2, hfl] at hdl'
          exact absurd hdl' (by simp)
      · exact hent e he
    · intro h0
      rw [hzero h0] at hfind
      exact absurd hfind (by simp [avlFindOffset])
    · rw [length_replaceEntry]
      exact hlen
  · rw [hc]
    obtain ⟨hve, hsz0, hcase⟩ := vdev_cache_allocate_eq_some halloc
    have hwfnew : EntryWF { ve with ve_fill := some [z] } :=
      ⟨fun hno => by simp at hno, fun dl' hdl' => by
        simp only [Option.some.injEq] at hdl'
        rw [← hdl']
        exact List.cons_ne_nil z []⟩
    rcases hcase with ⟨hbound, hvc1⟩ | ⟨hover, m, hfirst, hmfill, hvc1⟩
    · refine ⟨?_, fun h0 => absurd h0 hsz0, ?_⟩
      · intro e he
        rcases mem_replaceEntry he with heq | ⟨he, hne⟩
        · subst heq
          exact hwfnew
        · rw [hvc1] at he
          rcases List.mem_append.mp he with he | he
          · exact hent e he
          · rw [List.mem_singleton] at he
            subst he
            exact absurd (by rw [hve]; rfl) hne
      · rw [length_replaceEntry, hvc1, List.length_append, List.length_singleton]
        rw [Nat.shiftLeft_eq] at hbound ⊢
        rw [VCBS_eq_two_pow]
        rw [Nat.succ_mul]
        omega
    · have hmmem : m ∈ vc := avlFirstLastused_mem hfirst
      have hlen1 : (vdev_cache_evict vc m.ve_offset).length = vc.length - 1 := by
        unfold vdev_cache_evict
        exact List.length_eraseP_of_mem hmmem (by simp)
      refine ⟨?_, fun h0 => absurd h0 hsz0, ?_⟩
      · intro e he
        rcases mem_replaceEntry he with heq | ⟨he, hne⟩
        · subst heq
          exact hwfnew
        · rw [hvc1] at he
          rcases List.mem_append.mp he with he | he
          · exact hent e (mem_of_mem_evict he)
          · rw [List.mem_singleton] at he
            subst he
            exact absurd (by rw [hve]; rfl) hne
      · rw [length_replaceEntry, hvc1, List.length_append, List.length_singleton, hlen1]
        have hpos : 0 < vc.length := List.length_pos.mpr (List.ne_nil_of_mem hmmem)
        rw [Nat.shiftLeft_eq] at hlen ⊢
        rw [VCBS_eq_two_pow] at hlen ⊢
        have harith : (vc.length - 1 + 1) = vc.length := by omega
        rw [harith]
        omega

theorem length_evict_le (vc : List VdevCacheEntry) (off : Nat) :
    (vdev_cache_evict vc off).length ≤ vc.length :=
  List.length_eraseP_le vc

theorem CacheWF_fill {tun : VdevCacheTunables} {lbolt off err : Nat}
    {vc : List VdevCacheEntry} {fdata : List Nat} (h : CacheWF tun vc) :
    CacheWF tun (vdev_cache_fill tun lbolt vc off err fdata).cache := by
  obtain ⟨hent, hzero, hlen⟩ := h
  rcases vdev_cache_fill_cache_cases tun lbolt vc off err fdata with
    hc | ⟨ve, dl, hfind, hfl, hc⟩
  · rw [hc]
    exact ⟨hent, hzero, hlen⟩
  · obtain ⟨g1, g2, g3, g4, g5⟩ :=
      fillHitLoop_fst tun lbolt dl { ve with ve_data := fdata, ve_fill := none }
    have hdl : dl ≠ [] := (hent ve (avlFindOffset_mem hfind)).2 dl hfl
    have hwf1 : EntryWF (fillHitLoop tun lbolt { ve with ve_data := fdata, ve_fill := none } dl).1 := by
      constructor
      · intro _
        rw [g5]
        have hp : 0 < dl.length := List.length_pos.mpr hdl
        omega
      · intro dl' hdl'
        rw [g2] at hdl'
        simp at hdl'
    have hrep : ∀ e ∈ replaceEntry vc off
        (fillHitLoop tun lbolt { ve with ve_data := fdata, ve_fill := none } dl).1, EntryWF e := by
      intro e he
      rcases mem_replaceEntry he with heq | ⟨he, _⟩
      · subst heq
        exact hwf1
      · exact hent e he
    rcases hc with hc | hc
    · rw [hc]
      refine ⟨hrep, ?_, ?_⟩
      · intro h0
        rw [hzero h0] at hfind
        exact absurd hfind (by simp [avlFindOffset])
      · rw [length_replaceEntry]
        exact hlen
    · rw [hc]
      refine ⟨?_, ?_, ?_⟩
      · intro e he
        exact hrep e (mem_of_mem_evict he)
      · intro h0
        rw [hzero h0] at hfind
        exact absurd hfind (by simp [avlFindOffset])
      · have hle := length_evict_le
          (replaceEntry vc off
            (fillHitLoop tun lbolt { ve with ve_data := fdata, ve_fill := none } dl).1) off
        rw [length_replaceEntry] at hle
        rw [Nat.shiftLeft_eq] at hlen ⊢
        have := Nat.mul_le_mul_right (2 ^ tun.zfs_vdev_cache_bshift) hle
        omega

theorem mem_vdev_cache_write {tun : VdevCacheTunables} {io_offset io_size : Nat}
    {vc : List VdevCacheEntry} {wdata : List Nat} {e : VdevCacheEntry}
    (he : e ∈ vdev_cache_write tun vc io_offset io_size wdata) :
    ∃ a ∈ vc, e.ve_offset = a.ve_offset ∧ e.ve_fill = a.ve_fill ∧ e.ve_hits = a.ve_hits := by
  unfold vdev_cache_write at he
  simp only [List.mem_map] at he
  obtain ⟨a, ha, hae⟩ := he
  refine ⟨a, ha, ?_⟩
  rw [← hae]
  split
  · split <;> simp
  · simp

theorem length_vdev_cache_write (tun : VdevCacheTunables) (io_offset io_size : Nat)
    (vc : List VdevCacheEntry) (wdata : List Nat) :
    (vdev_cache_write tun vc io_offset io_size wdata).length = vc.length := by
  unfold vdev_cache_write
  simp

theorem CacheWF_write {tun : VdevCacheTunables} {io_offset io_size : Nat}
    {vc : List VdevCacheEntry} {wdata : List Nat} (h : CacheWF tun vc) :
    CacheWF tun (vdev_cache_write tun vc io_offset io_size wdata) := by
  obtain ⟨hent, hzero, hlen⟩ := h
  refine ⟨?_, ?_, ?_⟩
  · intro e he
    obtain ⟨a, ha, h1, h2, h3⟩ := mem_vdev_cache_write he
    obtain ⟨w1, w2⟩ := hent a ha
    constructor
    · intro hn
      rw [h3]
      exact w1 (h2 ▸ hn)
    · intro dl hdl
      exact w2 dl (by rw [← h2]; exact hdl)
  · intro h0
    rw [hzero h0]
    rfl
  · rw [length_vdev_cache_write]
    exact hlen

theorem CacheWF_purge (tun : VdevCacheTunables) (vc : List VdevCacheEntry) :
    CacheWF tun (vdev_cache_purge vc) := by
  refine ⟨by simp [vdev_cache_purge], fun _ => rfl, ?_⟩
  simp [vdev_cache_purge, Nat.zero_shiftLeft]

/-- The invariant holds in every reachable cache state. -/
theorem VdevCacheReachable_wf {tun : VdevCacheTunables} {s : List VdevCacheEntry}
    (h : VdevCacheReachable tun s) : CacheWF tun s := by
  induction h with
  | init => exact ⟨by simp, fun _ => rfl, by simp [Nat.zero_shiftLeft]⟩
  | step hr hs ih =>
    cases hs with
    | read lbolt z s => exact CacheWF_read ih
    | fillDone lbolt off err fdata s => exact CacheWF_fill ih
    | writeDone off sz wdata s => exact CacheWF_write ih
    | purge s => exact CacheWF_purge tun s

/-! ### Concrete executions used below -/

/-- Tunables with a 4-byte block (`bshift = 2`), `max_request = 4` and
`size_limit = 8 = 2 × B`. -/
def tunSmall : VdevCacheTunables :=
  { zfs_vdev_cache_max := 4, zfs_vdev_cache_size := 8, zfs_vdev_cache_bshift := 2 }

/-- An eligible 4-byte read request at the given offset. -/
def rdAt (off : Nat) : ZioReq :=
  { io_offset := off, io_size := 4, io_data := [7, 7, 7, 7], io_error := 0,
    io_dont_cache := false }

def lruS1 : List VdevCacheEntry := (vdev_cache_read tunSmall 0 [] (rdAt 0)).cache

def lruS2 : List VdevCacheEntry := (vdev_cache_fill tunSmall 0 lruS1 0 0 [1, 2, 3, 4]).cache

def lruS3 : List VdevCacheEntry := (vdev_cache_read tunSmall 0 lruS2 (rdAt 4)).cache

def lruS4 : List VdevCacheEntry := (vdev_cache_fill tunSmall 0 lruS3 4 0 [5, 6, 7, 8]).cache

def lruS5 : List VdevCacheEntry := (vdev_cache_read tunSmall 0 lruS4 (rdAt 8)).cache

/-- The state after misses at offsets 0, B, 2B (B = 4), each fill fully
completing, starting from the empty cache. -/
def lruS6 : List VdevCacheEntry := (vdev_cache_fill tunSmall 0 lruS5 8 0 [9, 10, 11, 12]).cache

theorem lruS6_reachable : VdevCacheReachable tunSmall lruS6 :=
  VdevCacheReachable.step
    (VdevCacheReachable.step
      (VdevCacheReachable.step
        (VdevCacheReachable.step
          (VdevCacheReachable.step
            (VdevCacheReachable.step VdevCacheReachable.init
              (VdevCacheStep.read 0 (rdAt 0) []))
            (VdevCacheStep.fillDone 0 0 0 [1, 2, 3, 4] lruS1))
          (VdevCacheStep.read 0 (rdAt 4) lruS2))
        (VdevCacheStep.fillDone 0 4 0 [5, 6, 7, 8] lruS3))
      (VdevCacheStep.read 0 (rdAt 8) lruS4))
    (VdevCacheStep.fillDone 0 8 0 [9, 10, 11, 12] lruS5)

/-- Tunables with a 1-byte block (`bshift = 0`), `max_request = 1` and
`size_limit = 1 = B`. -/
def tunOne : VdevCacheTunables :=
  { zfs_vdev_cache_max := 1, zfs_vdev_cache_size := 1, zfs_vdev_cache_bshift := 0 }

/-- An eligible 1-byte read request at the given offset. -/
def rdOne (off : Nat) : ZioReq :=
  { io_offset := off, io_size := 1, io_data := [0], io_error := 0, io_dont_cache := false }

def oneS1 : List VdevCacheEntry := (vdev_cache_read tunOne 0 [] (rdOne 0)).cache

def oneS2 : List VdevCacheEntry := (vdev_cache_fill tunOne 0 oneS1 0 0 [3]).cache

/-- Two entries: the completed block 0 (one recorded hit) and the block
1 whose fill is still in flight; the total size exceeds the limit. -/
def oneS3 : List VdevCacheEntry := (vdev_cache_read tunOne 0 oneS2 (rdOne 1)).cache

theorem oneS3_reachable : VdevCacheReachable tunOne oneS3 :=
  VdevCacheReachable.step
    (VdevCacheReachable.step
      (VdevCacheReachable.step VdevCacheReachable.init
        (VdevCacheStep.read 0 (rdOne 0) []))
      (VdevCacheStep.fillDone 0 0 0 [3] oneS1))
    (VdevCacheStep.read 0 (rdOne 1) oneS2)

/-- The LRU candidate of `oneS3`: the completed block-0 entry. -/
def oneS3First : VdevCacheEntry :=
  { ve_offset := 0, ve_lastused := 0, ve_hits := 1, ve_missed_update := false,
    ve_data := [3], ve_fill := none }

/-! ### C1 -/

/-- C1 (counterexample): with `size_limit = 2 × B` (B = 4), misses at
offsets 0, B, 2B, each fill fully completing, leave THREE entries — at
offsets 0, B and 2B — with no outstanding fill.  So
`entry_count × B = 12 > 8 = size_limit` although `size_limit ≠ 0`, and
the offset-0 entry has not been evicted, contradicting both parts of
the claim. -/
theorem vdev_cache_size_limit_counterexample :
    (∀ e ∈ lruS6, e.ve_fill = none) ∧
    lruS6.map (fun e => e.ve_offset) = [0, 4, 8] ∧
    tunSmall.zfs_vdev_cache_size = 8 ∧ VCBS tunSmall = 4 ∧
    ¬(lruS6.length * VCBS tunSmall ≤ tunSmall.zfs_vdev_cache_size) := by
  decide

/-- C1 (amended): after any sequence of reads, writes, fills and purges
terminating with no outstanding fills, `entry_count × B` is at most
`size_limit + B` (the allocate path evicts only once the total is
already past the limit, so the count can overshoot by exactly one
block), and with `size_limit = 0` the cache holds no entries at all. -/
theorem vdev_cache_size_bound_amended (tun : VdevCacheTunables) (s : List VdevCacheEntry)
    (hre : VdevCacheReachable tun s) (_hnf : ∀ e ∈ s, e.ve_fill = none) :
    (tun.zfs_vdev_cache_size = 0 → s.length = 0) ∧
    s.length * VCBS tun ≤ tun.zfs_vdev_cache_size + VCBS tun := by
  obtain ⟨hent, hzero, hlen⟩ := VdevCacheReachable_wf hre
  constructor
  · intro h0
    rw [hzero h0]
    rfl
  · rw [Nat.shiftLeft_eq, ← VCBS_eq_two_pow] at hlen
    exact hlen

theorem vdev_cache_size_bound_amended_witness :
    (tunSmall.zfs_vdev_cache_size = 0 → lruS6.length = 0) ∧
    lruS6.length * VCBS tunSmall ≤ tunSmall.zfs_vdev_cache_size + VCBS tunSmall :=
  vdev_cache_size_bound_amended tunSmall lruS6 lruS6_reachable (by decide)

/-! ### C7 -/

/-- C7: in every reachable state, when the allocate path is about to
make room (the cache is past its size limit) the LRU entry it examines
satisfies the source's `ASSERT(ve->ve_hits != 0)` whenever it is idle —
because the miss that allocated it was itself on the fill's delegate
list and registered as its first hit at fill completion — and when that
LRU entry is still filling, `vdev_cache_allocate` returns failure
instead of evicting it. -/
theorem vdev_cache_allocate_assert_valid (tun : VdevCacheTunables)
    (s : List VdevCacheEntry) (hre : VdevCacheReachable tun s)
    (hover : tun.zfs_vdev_cache_size < s.length <<< tun.zfs_vdev_cache_bshift)
    (ve : VdevCacheEntry) (hfirst : avlFirstLastused s = some ve) :
    (ve.ve_fill = none → ve.ve_hits ≠ 0) ∧
    (∀ dl, ve.ve_fill = some dl → ∀ lbolt io_offset,
      vdev_cache_allocate tun lbolt s io_offset = none) := by
  obtain ⟨hent, _, _⟩ := VdevCacheReachable_wf hre
  have hmem := avlFirstLastused_mem hfirst
  constructor
  · intro hno
    have := (hent ve hmem).1 hno
    omega
  · intro dl hdl lbolt io_offset
    exact vdev_cache_allocate_none_of_first_filling hover hfirst (by rw [hdl]; rfl)

theorem vdev_cache_allocate_assert_valid_witness : oneS3First.ve_hits ≠ 0 :=
  (vdev_cache_allocate_assert_valid tunOne oneS3 oneS3_reachable (by decide)
    oneS3First (by decide)).1 rfl

/-! ### C9 -/

/-- C9: a single `vdev_cache_allocate` call that succeeds evicts at
most one entry — the `(ve_lastused, ve_offset)`-minimal one — and
every other existing entry survives into the result unchanged, however
far the cache is past its size limit. -/
theorem vdev_cache_allocate_evicts_at_most_one
    (tun : VdevCacheTunables) (lbolt io_offset : Nat) (vc : List VdevCacheEntry)
    (ve : VdevCacheEntry) (vc1 : List VdevCacheEntry)
    (hnd : (vc.map (fun e => e.ve_offset)).Nodup)
    (h : vdev_cache_allocate tun lbolt vc io_offset = some (ve, vc1)) :
    ve = newCacheEntry tun lbolt io_offset ∧
    (vc1 = vc ++ [ve] ∨
      ∃ m, avlFirstLastused vc = some m ∧
        (∀ e ∈ vc, lastusedLt e m = false) ∧
        (∀ e ∈ vc, e ≠ m → e ∈ vc1) ∧
        vc1 = vdev_cache_evict vc m.ve_offset ++ [ve]) := by
  obtain ⟨hve, _, hcase⟩ := vdev_cache_allocate_eq_some h
  refine ⟨hve, ?_⟩
  rcases hcase with ⟨_, hvc1⟩ | ⟨_, m, hfirst, _, hvc1⟩
  · left
    exact hvc1
  · right
    have hmm := avlFirstLastused_mem hfirst
    refine ⟨m, hfirst, avlFirstLastused_min hfirst, ?_, hvc1⟩
    intro e he hne
    rw [hvc1]
    apply List.mem_append_left
    unfold vdev_cache_evict
    refine (List.mem_eraseP_of_neg ?_).mpr he
    intro hbe
    have heq : e.ve_offset = m.ve_offset := by simpa using hbe
    exact hne (List.inj_on_of_nodup_map hnd he hmm heq)

/-- A three-entry cache (offsets 0, 1, 2; 1-byte blocks) that is two
blocks past the one-byte size limit. -/
def c9vc : List VdevCacheEntry :=
  [{ ve_offset := 0, ve_lastused := 0, ve_hits := 1, ve_missed_update := false,
     ve_data := [0], ve_fill := none },
   { ve_offset := 1, ve_lastused := 0, ve_hits := 1, ve_missed_update := false,
     ve_data := [0], ve_fill := none },
   { ve_offset := 2, ve_lastused := 0, ve_hits := 1, ve_missed_update := false,
     ve_data := [0], ve_fill := none }]

def c9new : VdevCacheEntry :=
  { ve_offset := 7, ve_lastused := 5, ve_hits := 0, ve_missed_update := false,
    ve_data := [0], ve_fill := none }

theorem vdev_cache_allocate_evicts_at_most_one_witness :
    c9new = newCacheEntry tunOne 5 7 ∧
    (c9vc.tail ++ [c9new] = c9vc ++ [c9new] ∨
      ∃ m, avlFirstLastused c9vc = some m ∧
        (∀ e ∈ c9vc, lastusedLt e m = false) ∧
        (∀ e ∈ c9vc, e ≠ m → e ∈ c9vc.tail ++ [c9new]) ∧
        c9vc.tail ++ [c9new] = vdev_cache_evict c9vc m.ve_offset ++ [c9new]) :=
  vdev_cache_allocate_evicts_at_most_one tunOne 5 7 c9vc c9new (c9vc.tail ++ [c9new])
    (by decide) (by decide)

/-! ### C2 -/

/-- The read that triggers the miss for block 0 (attached first, at the
bottom of the delegate list). -/
def dlgA : ZioReq :=
  { io_offset := 0, io_size := 1, io_data := [0], io_error := 0, io_dont_cache := false }

/-- A second read of the same block (attached second, pushed onto the
front of the delegate list). -/
def dlgB : ZioReq :=
  { io_offset := 1, io_size := 1, io_data := [0], io_error := 0, io_dont_cache := false }

def dlgS1 : List VdevCacheEntry := (vdev_cache_read tunSmall 0 [] dlgA).cache

def dlgS2 : List VdevCacheEntry := (vdev_cache_read tunSmall 0 dlgS1 dlgB).cache

def dlgFill : FillOutcome := vdev_cache_fill tunSmall 0 dlgS2 0 0 [1, 2, 3, 4]

/-- C2 (counterexample): `dlgA` is attached to the block-0 fill first
(by the miss itself), `dlgB` second (`vdev_cache_read` pushes it onto
the FRONT of `io_delegate_list`), so the list reads `[dlgB, dlgA]`; at
fill completion the delegates are resumed in list order — `dlgB`
(offset 1) before `dlgA` (offset 0) — i.e. in REVERSE order of
attachment, not in attachment order as the claim states. -/
theorem vdev_cache_fill_resume_order_counterexample :
    ((avlFindOffset dlgS1 0).map (fun e => e.ve_fill)) = some (some [dlgA]) ∧
    ((avlFindOffset dlgS2 0).map (fun e => e.ve_fill)) = some (some [dlgB, dlgA]) ∧
    dlgFill.resumed.map (fun d => d.io_offset) = [1, 0] ∧
    ([1, 0] : List Nat) ≠ [0, 1] := by
  decide

/-- C2 (amended): fill completion walks and resumes the delegates in
delegate-list order (head first), and `vdev_cache_read` pushes each new
delegate onto the front of that list, so within one fill the delegates
are resumed in reverse order of attachment. -/
theorem vdev_cache_fill_resumes_in_list_order (tun : VdevCacheTunables) (lbolt : Nat)
    (vc : List VdevCacheEntry) (off err : Nat) (fdata : List Nat)
    (ve : VdevCacheEntry) (dl : List ZioReq)
    (hfind : avlFindOffset vc off = some ve) (hfl : ve.ve_fill = some dl) :
    ((vdev_cache_fill tun lbolt vc off err fdata).resumed =
      dl.map (fun d =>
        { d with
          io_data := (fdata.drop (p2phase d.io_offset (VCBS tun))).take d.io_size,
          io_error := err })) ∧
    (∀ z lbolt2, z.io_dont_cache = false → ¬tun.zfs_vdev_cache_max < z.io_size →
      p2cross z.io_offset ((z.io_offset + z.io_size + (U64 - 1)) % U64) (VCBS tun) = false →
      p2align z.io_offset (VCBS tun) = off → ve.ve_missed_update = false →
      avlFindOffset (vdev_cache_read tun lbolt2 vc z).cache off =
        some { ve with ve_fill := some (z :: dl) }) := by
  constructor
  · exact vdev_cache_fill_resumed hfind hfl
  · intro z lbolt2 h1 h2 h3 hco hm
    subst hco
    rw [vdev_cache_read_delegate h1 h2 h3 hfind hm hfl]
    have hvo : ve.ve_offset = p2align z.io_offset (VCBS tun) := avlFindOffset_offset hfind
    exact avlFindOffset_replaceEntry_same hfind
      (show ({ ve with ve_fill := some (z :: dl) } : VdevCacheEntry).ve_offset =
        p2align z.io_offset (VCBS tun) from hvo)

/-- A block-0 entry whose fill is in flight with delegate list
`[dlgB, dlgA]`. -/
def c2ve : VdevCacheEntry :=
  { ve_offset := 0, ve_lastused := 0, ve_hits := 0, ve_missed_update := false,
    ve_data := [0, 0, 0, 0], ve_fill := some [dlgB, dlgA] }

theorem vdev_cache_fill_resumes_in_list_order_witness :
    (vdev_cache_fill tunSmall 0 [c2ve] 0 0 [1, 2, 3, 4]).resumed =
      [dlgB, dlgA].map (fun d =>
        { d with
          io_data := (([1, 2, 3, 4] : List Nat).drop (p2phase d.io_offset (VCBS tunSmall))).take d.io_size,
          io_error := 0 }) :=
  (vdev_cache_fill_resumes_in_list_order tunSmall 0 [c2ve] 0 0 [1, 2, 3, 4] c2ve
    [dlgB, dlgA] (by decide) rfl).1

/-! ### C3 and C4 -/

/-- When fill completion takes the eviction branch, no entry for the
filled block survives in the cache (it was removed from both trees and
freed). -/
theorem fill_evicted_offset_ne {tun : VdevCacheTunables} {lbolt off err : Nat}
    {vc : List VdevCacheEntry} {fdata : List Nat} {ve : VdevCacheEntry} {dl : List ZioReq}
    (hnd : (vc.map (fun e => e.ve_offset)).Nodup)
    (hfind : avlFindOffset vc off = some ve) (hfl : ve.ve_fill = some dl)
    (hcond : err ≠ 0 ∨ ve.ve_missed_update = true) :
    ∀ e ∈ (vdev_cache_fill tun lbolt vc off err fdata).cache, e.ve_offset ≠ off := by
  intro e he
  rw [vdev_cache_fill_cache hfind hfl, if_pos hcond] at he
  have hp1off : (fillHitLoop tun lbolt { ve with ve_data := fdata, ve_fill := none } dl).1.ve_offset
      = off := by
    obtain ⟨g1, _, _, _, _⟩ :=
      fillHitLoop_fst tun lbolt dl { ve with ve_data := fdata, ve_fill := none }
    rw [g1]
    show ve.ve_offset = off
    exact avlFindOffset_offset hfind
  have hnd' : ((replaceEntry vc off
      (fillHitLoop tun lbolt { ve with ve_data := fdata, ve_fill := none } dl).1).map
        (fun e => e.ve_offset)).Nodup := by
    rw [map_offset_replaceEntry hp1off]
    exact hnd
  exact mem_evict_offset_ne hnd' he

/-- C3: when the fill child read completes with a nonzero error, the
error is stored in every delegate's `io_error` field before that
delegate is resumed, and the entry is evicted from both orderings (its
buffer freed) rather than retained with partial data. -/
theorem vdev_cache_fill_error_propagates (tun : VdevCacheTunables) (lbolt : Nat)
    (vc : List VdevCacheEntry) (off err : Nat) (fdata : List Nat)
    (ve : VdevCacheEntry) (dl : List ZioReq)
    (hnd : (vc.map (fun e => e.ve_offset)).Nodup)
    (hfind : avlFindOffset vc off = some ve) (hfl : ve.ve_fill = some dl)
    (herr : err ≠ 0) :
    (∀ d ∈ (vdev_cache_fill tun lbolt vc off err fdata).resumed, d.io_error = err) ∧
    (∀ e ∈ (vdev_cache_fill tun lbolt vc off err fdata).cache, e.ve_offset ≠ off) := by
  constructor
  · intro d hd
    rw [vdev_cache_fill_resumed hfind hfl] at hd
    obtain ⟨d0, _, hd0⟩ := List.mem_map.mp hd
    rw [← hd0]
  · exact fill_evicted_offset_ne hnd hfind hfl (Or.inl herr)

/-- A block-0 entry whose fill is in flight with the single delegate
`dlgA`. -/
def c3ve : VdevCacheEntry :=
  { ve_offset := 0, ve_lastused := 0, ve_hits := 0, ve_missed_update := false,
    ve_data := [0, 0, 0, 0], ve_fill := some [dlgA] }

theorem vdev_cache_fill_error_propagates_witness :
    ({ dlgA with io_data := [1], io_error := 5 } : ZioReq).io_error = 5 :=
  (vdev_cache_fill_error_propagates tunSmall 0 [c3ve] 0 5 [1, 2, 3, 4] c3ve [dlgA]
    (by decide) (by decide) rfl (by decide)).1
    { dlgA with io_data := [1], io_error := 5 } (by decide)

/-- C4: at the completion of a fill whose entry was invalidated by a
racing write (`ve_missed_update` set), every delegate is served first —
its bytes copied from the entry's freshly filled buffer, still under
the cache lock — and the entry is then evicted before the lock is
released (both effects are part of the same atomic critical section in
this model): the resulting cache no longer contains the entry, while
every delegate's buffer holds the consistent pre-write fill data. -/
theorem vdev_cache_fill_missed_update_serves_then_evicts (tun : VdevCacheTunables)
    (lbolt : Nat) (vc : List VdevCacheEntry) (off err : Nat) (fdata : List Nat)
    (ve : VdevCacheEntry) (dl : List ZioReq)
    (hnd : (vc.map (fun e => e.ve_offset)).Nodup)
    (hfind : avlFindOffset vc off = some ve) (hfl : ve.ve_fill = some dl)
    (hm : ve.ve_missed_update = true) :
    ((vdev_cache_fill tun lbolt vc off err fdata).resumed =
      dl.map (fun d =>
        { d with
          io_data := (fdata.drop (p2phase d.io_offset (VCBS tun))).take d.io_size,
          io_error := err })) ∧
    (∀ e ∈ (vdev_cache_fill tun lbolt vc off err fdata).cache, e.ve_offset ≠ off) := by
  constructor
  · exact vdev_cache_fill_resumed hfind hfl
  · exact fill_evicted_offset_ne hnd hfind hfl (Or.inr hm)

/-- A block-0 entry invalidated by a write while its fill (delegate
`dlgA`) is in flight. -/
def c4ve : VdevCacheEntry :=
  { ve_offset := 0, ve_lastused := 0, ve_hits := 0, ve_missed_update := true,
    ve_data := [0, 0, 0, 0], ve_fill := some [dlgA] }

theorem vdev_cache_fill_missed_update_serves_then_evicts_witness :
    (vdev_cache_fill tunSmall 0 [c4ve] 0 0 [1, 2, 3, 4]).resumed =
      [dlgA].map (fun d =>
        { d with
          io_data := (([1, 2, 3, 4] : List Nat).drop (p2phase d.io_offset (VCBS tunSmall))).take d.io_size,
          io_error := 0 }) :=
  (vdev_cache_fill_missed_update_serves_then_evicts tunSmall 0 [c4ve] 0 0 [1, 2, 3, 4]
    c4ve [dlgA] (by decide) (by decide) rfl rfl).1

/-! ### C5 -/

/-- Once the three policy-gate checks pass, the lock section of
`vdev_cache_read` can only return `ESTALE`, `0` or `ENOMEM`. -/
theorem vdev_cache_read_lock_codes {tun : VdevCacheTunables} {lbolt : Nat}
    {vc : List VdevCacheEntry} {z : ZioReq}
    (h1 : z.io_dont_cache = false) (h2 : ¬tun.zfs_vdev_cache_max < z.io_size)
    (h3 : p2cross z.io_offset ((z.io_offset + z.io_size + (U64 - 1)) % U64) (VCBS tun) = false) :
    (vdev_cache_read tun lbolt vc z).code = .ESTALE ∨
    (vdev_cache_read tun lbolt vc z).code = .OK ∨
    (vdev_cache_read tun lbolt vc z).code = .ENOMEM := by
  cases hfind : avlFindOffset vc (p2align z.io_offset (VCBS tun)) with
  | some ve =>
    cases hm : ve.ve_missed_update with
    | true =>
      left
      rw [vdev_cache_read_stale h1 h2 h3 hfind hm]
    | false =>
      cases hfl : ve.ve_fill with
      | some dl =>
        right; left
        rw [vdev_cache_read_delegate h1 h2 h3 hfind hm hfl]
      | none =>
        right; left
        rw [vdev_cache_read_hit_eq h1 h2 h3 hfind hm hfl]
  | none =>
    cases halloc : vdev_cache_allocate tun lbolt vc z.io_offset with
    | none =>
      right; right
      rw [vdev_cache_read_nomem h1 h2 h3 hfind halloc]
    | some p =>
      right; left
      rw [vdev_cache_read_miss h1 h2 h3 hfind (show _ = some (p.1, p.2) from halloc)]

/-- C5: `vdev_cache_read` declines exactly per the policy gate, checked
in order — don't-cache flag → `EINVAL`; `io_size > zfs_vdev_cache_max`
→ `EOVERFLOW`; otherwise `EXDEV` exactly when
`floor((offset + size − 1) / B) ≠ floor(offset / B)` — and in each
decline case the cache is unmodified and no request is resumed (the
gate runs before the lock is even taken, so no entry is created). -/
theorem vdev_cache_read_policy_gate (tun : VdevCacheTunables) (lbolt : Nat)
    (vc : List VdevCacheEntry) (z : ZioReq)
    (hsz : 1 ≤ z.io_size) (hnw : z.io_offset + z.io_size ≤ U64) :
    ((vdev_cache_read tun lbolt vc z).code = .EINVAL ↔ z.io_dont_cache = true) ∧
    (z.io_dont_cache = false →
      ((vdev_cache_read tun lbolt vc z).code = .EOVERFLOW ↔
        tun.zfs_vdev_cache_max < z.io_size)) ∧
    (z.io_dont_cache = false → z.io_size ≤ tun.zfs_vdev_cache_max →
      ((vdev_cache_read tun lbolt vc z).code = .EXDEV ↔
        (z.io_offset + z.io_size - 1) / VCBS tun ≠ z.io_offset / VCBS tun)) ∧
    (((vdev_cache_read tun lbolt vc z).code = .EINVAL ∨
      (vdev_cache_read tun lbolt vc z).code = .EOVERFLOW ∨
      (vdev_cache_read tun lbolt vc z).code = .EXDEV) →
      (vdev_cache_read tun lbolt vc z).cache = vc ∧
      (vdev_cache_read tun lbolt vc z).resumed = none) := by
  have hcr : p2cross z.io_offset ((z.io_offset + z.io_size + (U64 - 1)) % U64) (VCBS tun)
      = true ↔ (z.io_offset + z.io_size - 1) / VCBS tun ≠ z.io_offset / VCBS tun := by
    rw [straddle_operand_eq hsz hnw, VCBS_eq_two_pow, p2cross_eq_true_iff]
    exact ne_comm
  by_cases cdc : z.io_dont_cache = true
  · rw [vdev_cache_read_dont_cache cdc]
    refine ⟨by simp [cdc], ?_, ?_, fun _ => ⟨rfl, rfl⟩⟩
    · intro h1
      simp [h1] at cdc
    · intro h1 _
      simp [h1] at cdc
  · have h1 : z.io_dont_cache = false := by
      revert cdc
      cases z.io_dont_cache <;> simp
    by_cases cov : tun.zfs_vdev_cache_max < z.io_size
    · rw [vdev_cache_read_too_large h1 cov]
      refine ⟨by simp [h1], fun _ => by simp [cov], ?_, fun _ => ⟨rfl, rfl⟩⟩
      intro _ hle
      exact absurd cov (by omega)
    · cases hcr2 : p2cross z.io_offset ((z.io_offset + z.io_size + (U64 - 1)) % U64) (VCBS tun) with
      | true =>
        rw [vdev_cache_read_straddle h1 cov hcr2]
        refine ⟨by simp [h1], fun _ => by simp [cov], ?_, fun _ => ⟨rfl, rfl⟩⟩
        intro _ _
        exact ⟨fun _ => hcr.mp hcr2, fun _ => rfl⟩
      | false =>
        have hcodes := @vdev_cache_read_lock_codes tun lbolt vc z h1 cov hcr2
        refine ⟨?_, ?_, ?_, ?_⟩
        · rcases hcodes with h | h | h <;> rw [h] <;> simp [h1]
        · intro _
          rcases hcodes with h | h | h <;> rw [h] <;> simp [cov]
        · intro _ _
          rcases hcodes with h | h | h <;> rw [h] <;>
            exact ⟨fun habs => ZioErrno.noConfusion habs,
              fun hd => absurd (hcr.mpr hd) (by simp [hcr2])⟩
        · intro hor
          rcases hcodes with h | h | h <;> rcases hor with h' | h' | h' <;>
            rw [h] at h' <;> exact ZioErrno.noConfusion h'

/-- An 8-byte-straddling 2-byte read at offset 3 (block size 4). -/
def c5z : ZioReq :=
  { io_offset := 3, io_size := 2, io_data := [0, 0], io_error := 0, io_dont_cache := false }

theorem vdev_cache_read_policy_gate_witness :
    (vdev_cache_read tunSmall 0 [] c5z).code = ZioErrno.EXDEV :=
  ((vdev_cache_read_policy_gate tunSmall 0 [] c5z (by decide) (by decide)).2.2.1
    rfl (by decide)).mpr (by decide)

/-! ### C8 -/

/-- Dividing one less than a positive `B`-aligned offset lands in the
preceding block. -/
theorem div_pred_of_aligned {off B : Nat} (hB : 0 < B) (hal : off % B = 0)
    (hpos : 0 < off) : (off - 1) / B = off / B - 1 ∧ 1 ≤ off / B := by
  have hdm := Nat.div_add_mod off B
  have hm1 : 1 ≤ off / B := by
    rcases Nat.eq_zero_or_pos (off / B) with h0 | h1
    · rw [h0, Nat.mul_zero] at hdm
      omega
    · exact h1
  have hsplit : B * (off / B) = B * (off / B - 1) + B := by
    have hcan := Nat.sub_add_cancel hm1
    calc B * (off / B) = B * (off / B - 1 + 1) := by rw [hcan]
      _ = B * (off / B - 1) + B := by rw [Nat.mul_add, Nat.mul_one]
  have hsub : off - 1 = B * (off / B - 1) + (B - 1) := by omega
  refine ⟨?_, hm1⟩
  rw [hsub, Nat.mul_add_div hB, Nat.div_eq_of_lt (show B - 1 < B by omega), Nat.add_zero]

/-- C8: a zero-size read whose offset is block-aligned (and whose flags
pass the don't-cache check; size 0 always passes the max-size check) is
declined with `EXDEV`: the straddle test compares the blocks of
`offset` and `offset + size − 1`, and the latter wraps (mod 2^64) into
the preceding block — or, at offset 0, to the very last block — so an
aligned zero-size read is never treated as cacheable, and the cache is
left unchanged. -/
theorem vdev_cache_read_zero_size_aligned_straddles (tun : VdevCacheTunables)
    (lbolt : Nat) (vc : List VdevCacheEntry) (z : ZioReq)
    (hsz : z.io_size = 0) (hal : z.io_offset % VCBS tun = 0)
    (hdc : z.io_dont_cache = false) (hoff : z.io_offset < U64)
    (hbs : tun.zfs_vdev_cache_bshift ≤ 63) :
    (vdev_cache_read tun lbolt vc z).code = .EXDEV ∧
    (vdev_cache_read tun lbolt vc z).cache = vc := by
  have hB : VCBS tun = 2 ^ tun.zfs_vdev_cache_bshift := VCBS_eq_two_pow tun
  have hmax : ¬tun.zfs_vdev_cache_max < z.io_size := by
    rw [hsz]
    omega
  have hcross : p2cross z.io_offset ((z.io_offset + z.io_size + (U64 - 1)) % U64)
      (VCBS tun) = true := by
    rw [hsz, Nat.add_zero]
    rcases Nat.eq_zero_or_pos z.io_offset with h0 | hpos
    · rw [h0, Nat.zero_add, Nat.mod_eq_of_lt (by have := U64_pos; omega)]
      rw [hB, p2cross_eq_true_iff]
      intro heq
      rw [Nat.zero_div] at heq
      have hle1 : 1 ≤ (U64 - 1) / 2 ^ tun.zfs_vdev_cache_bshift := by
        rw [Nat.le_div_iff_mul_le (Nat.two_pow_pos _), Nat.one_mul]
        calc 2 ^ tun.zfs_vdev_cache_bshift ≤ 2 ^ 63 :=
              Nat.pow_le_pow_right (by omega) hbs
          _ ≤ U64 - 1 := by decide
      omega
    · have hmod : (z.io_offset + (U64 - 1)) % U64 = z.io_offset - 1 := by
        have he : z.io_offset + (U64 - 1) = (z.io_offset - 1) + U64 := by
          have := U64_pos
          omega
        rw [he, Nat.add_mod_right, Nat.mod_eq_of_lt (by omega)]
      rw [hmod, hB, p2cross_eq_true_iff]
      rw [hB] at hal
      obtain ⟨hdiv, hm1⟩ :=
        div_pred_of_aligned (Nat.two_pow_pos tun.zfs_vdev_cache_bshift) hal hpos
      intro heq
      rw [hdiv] at heq
      omega
  rw [vdev_cache_read_straddle hdc hmax hcross]
  exact ⟨rfl, rfl⟩

/-- A zero-size read at the block-aligned offset 4 (block size 4). -/
def c8z : ZioReq :=
  { io_offset := 4, io_size := 0, io_data := [], io_error := 0, io_dont_cache := false }

theorem vdev_cache_read_zero_size_aligned_straddles_witness :
    (vdev_cache_read tunSmall 0 [] c8z).code = ZioErrno.EXDEV :=
  (vdev_cache_read_zero_size_aligned_straddles tunSmall 0 [] c8z rfl (by decide) rfl
    (by decide) (by decide)).1

/-! ### C6 -/

/-- A block-0 entry whose fill is in flight. -/
def c6ve : VdevCacheEntry :=
  { ve_offset := 0, ve_lastused := 0, ve_hits := 1, ve_missed_update := false,
    ve_data := [1, 2, 3, 4], ve_fill := some [dlgA] }

/-- C6 (counterexample): a completed write of size 0 at offset 1 covers
the empty range `[1, 1)`; the block-0 entry overlaps none of it (its
overlap interval `[max(0,1), min(0+B, 1+0)) = [1, 1)` is empty), yet
`vdev_cache_write` still visits the block containing offset 1 and sets
`ve_missed_update` on the in-flight entry — an entry outside the
written range is changed. -/
theorem vdev_cache_write_zero_size_counterexample :
    ¬(max c6ve.ve_offset 1 < min (c6ve.ve_offset + VCBS tunSmall) (1 + 0)) ∧
    c6ve.ve_missed_update = false ∧
    (vdev_cache_write tunSmall [c6ve] 1 0 []).map (fun e => e.ve_missed_update) = [true] := by
  decide

/-- The per-entry effect of a completed write as the specification
words it: an entry whose overlap interval
`[max(ve_offset, offset), min(ve_offset + B, offset + size))` is
nonempty gets `ve_missed_update` set if its fill is in flight, the
overlapping bytes copied from the write's buffer otherwise; every other
entry is unchanged.  Stated from the specification, for comparison with
`vdev_cache_write`. -/
def writeSpecUpdate (tun : VdevCacheTunables) (io_offset io_size : Nat)
    (wdata : List Nat) (ve : VdevCacheEntry) : VdevCacheEntry :=
  let start := max ve.ve_offset io_offset
  let stop := min (ve.ve_offset + VCBS tun) (io_offset + io_size)
  if start < stop then
    if ve.ve_fill.isSome then { ve with ve_missed_update := true }
    else
      { ve with ve_data := (writeSeg ve.ve_data (start - ve.ve_offset)
          ((wdata.drop (start - io_offset)).take (stop - start))) }
  else ve

/-- A `P2ALIGN` lower bound is the overlap condition `x < e + B` for a
`B`-aligned `e`. -/
theorem le_p2align_iff_lt_add {x e B : Nat} (hB : 0 < B) (he : e % B = 0) :
    p2align x B ≤ e ↔ x < e + B := by
  rw [p2align_eq_mul]
  have hdm := Nat.div_add_mod x B
  have hmod : x % B < B := Nat.mod_lt x hB
  constructor
  · intro h
    omega
  · intro h
    have he' := Nat.div_add_mod e B
    rw [he, Nat.add_zero] at he'
    have hlt : B * (x / B) < B * (e / B + 1) := by
      rw [Nat.mul_add, Nat.mul_one, he']
      omega
    have hq : x / B ≤ e / B := by
      have := Nat.lt_of_mul_lt_mul_left hlt
      omega
    calc B * (x / B) ≤ B * (e / B) := Nat.mul_le_mul_left B hq
      _ = e := he'

/-- A `P2ROUNDUP` strict upper bound is the overlap condition `e < x`
for a `B`-aligned `e`, when the rounded value does not wrap. -/
theorem lt_p2roundup_iff {x e B : Nat} (hB : 0 < B) (he : e % B = 0)
    (hx : 0 < x) (hw : x + B ≤ U64) :
    e < p2roundup x B ↔ e < x := by
  unfold p2roundup
  have hr_le : (x + B - 1) / B * B ≤ x + B - 1 := Nat.div_mul_le_self _ _
  have hrlt : (x + B - 1) / B * B < U64 := by omega
  rw [Nat.mod_eq_of_lt hrlt]
  have hdm' := Nat.div_add_mod' (x + B - 1) B
  have hmod : (x + B - 1) % B < B := Nat.mod_lt _ hB
  have hxle : x ≤ (x + B - 1) / B * B := by omega
  constructor
  · intro h
    by_contra hxe
    have hxe' : x ≤ e := by omega
    have heq := Nat.div_add_mod e B
    have heB : e = B * (e / B) := by omega
    have hmono : (x + B - 1) / B ≤ (e + B - 1) / B :=
      Nat.div_le_div_right (by omega)
    have heBd : (e + B - 1) / B = e / B := by
      have hsplit : e + B - 1 = B * (e / B) + (B - 1) := by omega
      rw [hsplit, Nat.mul_add_div hB, Nat.div_eq_of_lt (show B - 1 < B by omega),
        Nat.add_zero]
    rw [heBd] at hmono
    have hmul : (x + B - 1) / B * B ≤ e / B * B := Nat.mul_le_mul_right B hmono
    have heB' : e / B * B = e := by
      rw [Nat.mul_comm]
      omega
    omega
  · intro h
    omega

/-- C6 (amended): a completed write with `io_size ≥ 1` (whose range,
padded by one block, does not reach the 2^64 wrap), applied to a cache
of block-aligned entries, updates exactly the entries overlapping
`[offset, offset + size)` — setting `ve_missed_update` if the entry's
fill is in flight, copying the overlapping bytes from the write's
buffer otherwise — and leaves every other entry unchanged; being a
pointwise map it neither creates nor evicts entries. -/
theorem vdev_cache_write_overlap_update (tun : VdevCacheTunables)
    (vc : List VdevCacheEntry) (io_offset io_size : Nat) (wdata : List Nat)
    (hsz : 1 ≤ io_size) (hnw : io_offset + io_size + VCBS tun ≤ U64)
    (hal : ∀ e ∈ vc, e.ve_offset % VCBS tun = 0) :
    vdev_cache_write tun vc io_offset io_size wdata =
      vc.map (writeSpecUpdate tun io_offset io_size wdata) := by
  unfold vdev_cache_write
  apply List.map_congr_left
  intro a ha
  have halo := hal a ha
  have hB := VCBS_pos tun
  have h1 : (p2align io_offset (VCBS tun) ≤ a.ve_offset ∧
      a.ve_offset < p2roundup (io_offset + io_size) (VCBS tun)) ↔
      max a.ve_offset io_offset < min (a.ve_offset + VCBS tun) (io_offset + io_size) := by
    rw [le_p2align_iff_lt_add hB halo, lt_p2roundup_iff hB halo (by omega) hnw]
    omega
  unfold writeSpecUpdate
  by_cases hc : max a.ve_offset io_offset < min (a.ve_offset + VCBS tun) (io_offset + io_size)
  · rw [if_pos (h1.mpr hc), if_pos hc]
  · rw [if_neg (fun hcc => hc (h1.mp hcc)), if_neg hc]

/-- An idle block-0 entry holding bytes `[1, 2, 3, 4]`. -/
def c6w : VdevCacheEntry :=
  { ve_offset := 0, ve_lastused := 0, ve_hits := 1, ve_missed_update := false,
    ve_data := [1, 2, 3, 4], ve_fill := none }

theorem vdev_cache_write_overlap_update_witness :
    vdev_cache_write tunSmall [c6w] 1 2 [9, 9] =
      [c6w].map (writeSpecUpdate tunSmall 1 2 [9, 9]) :=
  vdev_cache_write_overlap_update tunSmall [c6w] 1 2 [9, 9] (by decide) (by decide)
    (by decide)

/-! ### C10 -/

/-- A lookup commutes with any offset-preserving pointwise update of
the cache. -/
theorem avlFindOffset_map_offset_preserving {vc : List VdevCacheEntry} {off : Nat}
    {g : VdevCacheEntry → VdevCacheEntry} (hg : ∀ e, (g e).ve_offset = e.ve_offset) :
    avlFindOffset (vc.map g) off = (avlFindOffset vc off).map g := by
  induction vc with
  | nil => rfl
  | cons x xs ih =>
    unfold avlFindOffset at ih ⊢
    rw [List.map_cons]
    cases hp : (x.ve_offset == off) with
    | true =>
      have hp' : ((g x).ve_offset == off) = true := by rw [hg]; exact hp
      simp only [List.find?_cons, hp', hp]
      rfl
    | false =>
      have hp' : ((g x).ve_offset == off) = false := by rw [hg]; exact hp
      simp only [List.find?_cons, hp', hp]
      exact ih

/-- C10: a read that finds an entry with `ve_missed_update` set returns
`ESTALE` leaving the cache — in particular the fill's delegate list —
untouched; moreover, once `ve_missed_update` is set on an entry whose
fill is in flight, NO read (of any region) and no write changes that
entry at all, so its delegate list never grows: every delegate served
at fill completion was attached before the invalidating write. -/
theorem vdev_cache_read_stale_no_delegate (tun : VdevCacheTunables) (lbolt : Nat)
    (vc : List VdevCacheEntry) (off : Nat) (ve : VdevCacheEntry) (dl : List ZioReq)
    (hnd : (vc.map (fun e => e.ve_offset)).Nodup)
    (hfind : avlFindOffset vc off = some ve)
    (hm : ve.ve_missed_update = true) (hfl : ve.ve_fill = some dl)
    (z : ZioReq) (hco : p2align z.io_offset (VCBS tun) = off) :
    (z.io_dont_cache = false → ¬tun.zfs_vdev_cache_max < z.io_size →
      p2cross z.io_offset ((z.io_offset + z.io_size + (U64 - 1)) % U64) (VCBS tun) = false →
      vdev_cache_read tun lbolt vc z = { code := .ESTALE, cache := vc, resumed := none }) ∧
    (∀ (w : ZioReq) (lbolt2 : Nat),
      avlFindOffset (vdev_cache_read tun lbolt2 vc w).cache off = some ve) ∧
    (∀ (wo ws : Nat) (wd : List Nat),
      avlFindOffset (vdev_cache_write tun vc wo ws wd) off = some ve) := by
  refine ⟨?_, ?_, ?_⟩
  · intro h1 h2 h3
    rw [← hco] at hfind
    exact vdev_cache_read_stale h1 h2 h3 hfind hm
  · intro w lbolt2
    rcases vdev_cache_read_cache_cases tun lbolt2 vc w with
      hc | ⟨ve2, dl2, hfind2, hm2, hfl2, hc⟩ | ⟨ve2, hfind2, hm2, hfl2, hc⟩ |
      ⟨ve2, vc1, hfind2, halloc, hc⟩
    · rw [hc]
      exact hfind
    · rw [hc]
      by_cases hcoeq : p2align w.io_offset (VCBS tun) = off
      · rw [hcoeq] at hfind2
        rw [hfind] at hfind2
        injection hfind2 with hve2
        rw [← hve2, hm] at hm2
        exact Bool.noConfusion hm2
      · have hvo : ve2.ve_offset = p2align w.io_offset (VCBS tun) :=
          avlFindOffset_offset hfind2
        rw [avlFindOffset_replaceEntry_other hcoeq
          (show ({ ve2 with ve_fill := some (w :: dl2) } : VdevCacheEntry).ve_offset =
            p2align w.io_offset (VCBS tun) from hvo)]
        exact hfind
    · rw [hc]
      by_cases hcoeq : p2align w.io_offset (VCBS tun) = off
      · rw [hcoeq] at hfind2
        rw [hfind] at hfind2
        injection hfind2 with hve2
        rw [← hve2, hm] at hm2
        exact Bool.noConfusion hm2
      · have hoff2 : (vdev_cache_hit tun lbolt2 ve2 w).1.ve_offset =
            p2align w.io_offset (VCBS tun) := by
          obtain ⟨g1, _, _, _, _⟩ := vdev_cache_hit_fst tun lbolt2 ve2 w
          rw [g1]
          exact avlFindOffset_offset hfind2
        rw [avlFindOffset_replaceEntry_other hcoeq hoff2]
        exact hfind
    · rw [hc]
      by_cases hcoeq : p2align w.io_offset (VCBS tun) = off
      · rw [hcoeq] at hfind2
        rw [hfind] at hfind2
        exact Option.noConfusion hfind2
      · obtain ⟨hve2, _, hcase⟩ := vdev_cache_allocate_eq_some halloc
        have hoff2 : ({ ve2 with ve_fill := some [w] } : VdevCacheEntry).ve_offset =
            p2align w.io_offset (VCBS tun) := by
          show ve2.ve_offset = p2align w.io_offset (VCBS tun)
          rw [hve2]
          rfl
        rw [avlFindOffset_replaceEntry_other hcoeq hoff2]
        rcases hcase with ⟨_, hvc1⟩ | ⟨_, m, hfirst, hmfill, hvc1⟩
        · rw [hvc1]
          exact avlFindOffset_append_left hfind
        · rw [hvc1]
          have hvemem : ve ∈ vc := avlFindOffset_mem hfind
          have hmmem : m ∈ vc := avlFirstLastused_mem hfirst
          have hmoff : m.ve_offset ≠ off := by
            intro heq
            have hveoff : ve.ve_offset = off := avlFindOffset_offset hfind
            have hmve : m = ve :=
              List.inj_on_of_nodup_map hnd hmmem hvemem (by rw [heq, hveoff])
            rw [hmve, hfl] at hmfill
            exact Option.noConfusion hmfill
          apply avlFindOffset_append_left
          unfold vdev_cache_evict
          rw [avlFindOffset_eraseP_other hmoff]
          exact hfind
  · intro wo ws wd
    unfold vdev_cache_write
    rw [avlFindOffset_map_offset_preserving ?hg]
    case hg =>
      intro e
      dsimp only
      split
      · split <;> rfl
      · rfl
    rw [hfind]
    show some _ = some ve
    congr 1
    dsimp only
    split
    · rw [if_pos (show ve.ve_fill.isSome = true by rw [hfl]; rfl)]
      obtain ⟨o, lu, hh, mu, da, fi⟩ := ve
      simp only at hm
      rw [hm]
    · rfl

/-- A block-0 entry invalidated by a write while its fill (delegate
`dlgA`) is still in flight. -/
def c10ve : VdevCacheEntry :=
  { ve_offset := 0, ve_lastused := 0, ve_hits := 0, ve_missed_update := true,
    ve_data := [0, 0, 0, 0], ve_fill := some [dlgA] }

theorem vdev_cache_read_stale_no_delegate_witness :
    vdev_cache_read tunSmall 0 [c10ve] dlgA =
      { code := .ESTALE, cache := [c10ve], resumed := none } :=
  (vdev_cache_read_stale_no_delegate tunSmall 0 [c10ve] 0 c10ve [dlgA]
    (by decide) (by decide) rfl rfl dlgA (by decide)).1 rfl (by decide) (by decide)
